import Mathlib

/-!
# Verification development for `peterdekok.nl/net`

A shallow embedding of the packages `field`, `fields`, `message` and `net`,
followed by the statements proved about them.

Conventions of the embedding:

* Go `string` and `[]byte` values are byte sequences; both are embedded as
  `List Nat`, one list element per byte, and a nil slice is the empty list.
* The functions of the Go standard library that the source calls (`bytes.Trim`,
  `bytes.SplitN`, `bytes.Split`, `bytes.Join`, `bytes.HasSuffix`,
  `bufio.Reader.ReadBytes`) are embedded in the namespaces `bytes` and `bufio`,
  following the standard library's own loops.  Every cutset and separator the
  source passes to them is a non-empty ASCII constant, for which `bytes.Trim`
  works byte by byte.
* An `error` is `Option String`: `none` for nil, `some msg` for an error with
  that message.
* The `int32` counters `closing` and `closed` are integers updated through
  `wrapInt32`, the two's complement wrap-around of `atomic.AddInt32`.
* What the network does (whether a host resolves, what a read or a write on
  the socket returns) is an argument of the embedded function.  Logging and
  the registration `trap.OnKill(conn.Close)` do not act on the connection and
  are left out.
-/

/-- A Go byte string (`string` or `[]byte`): the list of its bytes. -/
abbrev Bytes := List Nat

/-- The bytes of an ASCII literal. -/
def ascii (s : String) : Bytes := s.toList.map Char.toNat

/-! ## Package `bytes` (Go standard library) -/

namespace bytes

/-- Membership of a byte in a cutset (the `asciiSet.contains` test of `bytes.Trim`). -/
def inCutset (cutset : Bytes) (b : Nat) : Bool := cutset.contains b

/-- `bytes.TrimRight` for an ASCII cutset: drop trailing bytes that belong to the cutset. -/
def TrimRight (s cutset : Bytes) : Bytes := s.rdropWhile (inCutset cutset)

/-- `bytes.TrimLeft` for an ASCII cutset: drop leading bytes that belong to the cutset. -/
def TrimLeft (s cutset : Bytes) : Bytes := s.dropWhile (inCutset cutset)

/-- `bytes.Trim(s, cutset)`: `TrimLeft(TrimRight(s, cutset), cutset)`. -/
def Trim (s cutset : Bytes) : Bytes := TrimLeft (TrimRight s cutset) cutset

/-- `bytes.Index(s, sep)`: position of the first occurrence of `sep` in `s`
(`none` for Go's `-1`). -/
def Index (s sep : Bytes) : Option Nat :=
  if sep.isPrefixOf s then some 0
  else match s with
    | [] => none
    | _ :: t => (Index t sep).map (· + 1)

/-- `bytes.Count(s, sep)` for a non-empty `sep`: the number of non-overlapping
occurrences, found from the left; the first argument bounds the number of
iterations of the loop. -/
def countLoop (sep : Bytes) : Nat → Bytes → Nat
  | 0, _ => 0
  | fuel + 1, s =>
    match Index s sep with
    | none => 0
    | some i => countLoop sep fuel (s.drop (i + sep.length)) + 1

/-- `bytes.Count(s, sep)` for a non-empty `sep` (each iteration consumes at
least one byte of `s`, so `s.length` iterations suffice). -/
def Count (s sep : Bytes) : Nat := countLoop sep s.length s

/-- The loop of `bytes.genSplit` (with `sepSave = 0`, non-empty `sep`): `k` is
the number of separators still to be cut, `n - 1 - i` in the source; the
remainder of `s` is the last piece. -/
def genSplitLoop (sep : Bytes) : Nat → Bytes → List Bytes
  | 0, s => [s]
  | k + 1, s =>
    match Index s sep with
    | none => [s]
    | some m => s.take m :: genSplitLoop sep k (s.drop (m + sep.length))

/-- `bytes.genSplit(s, sep, 0, n)` for a non-empty `sep`: `n = 0` gives no
pieces, `n < 0` means all pieces, and `n` is capped at `len(s) + 1`. -/
def genSplit (s sep : Bytes) (n : Int) : List Bytes :=
  if n = 0 then []
  else
    let n1 : Nat := if n < 0 then Count s sep + 1 else n.toNat
    let n2 : Nat := if n1 > s.length + 1 then s.length + 1 else n1
    genSplitLoop sep (n2 - 1) s

/-- `bytes.SplitN(s, sep, n)`. -/
def SplitN (s sep : Bytes) (n : Int) : List Bytes := genSplit s sep n

/-- `bytes.Split(s, sep)`: `genSplit(s, sep, 0, -1)`. -/
def Split (s sep : Bytes) : List Bytes := genSplit s sep (-1)

/-- `bytes.Join(s, sep)`: the elements of `s` with `sep` between neighbours. -/
def Join (s : List Bytes) (sep : Bytes) : Bytes := sep.intercalate s

/-- `bytes.HasSuffix(s, suffix)`. -/
def HasSuffix (s suffix : Bytes) : Bool := suffix.isSuffixOf s

end bytes

/-! ## Package `field` -/

namespace field

/-- `const Separator = ": "`. -/
def Separator : Bytes := ascii ": "

/-- `type Field struct { Key string; Value string }`. -/
structure Field where
  Key : Bytes
  Value : Bytes
deriving DecidableEq, Repr

/-- `func New(key string, val string) *Field`. -/
def New (key val : Bytes) : Field := { Key := key, Value := val }

/-- `func unpack(s, sep []byte, vars ...*[]byte)`: the pieces of
`bytes.SplitN(s, sep, len(vars))` overwrite the first variables, the others
keep their value.  The result is the list of the variables afterwards. -/
def unpack (s sep : Bytes) (vars : List Bytes) : List Bytes :=
  let ss := bytes.SplitN s sep vars.length
  ss ++ vars.drop ss.length

/-- `func Unmarshal(line []byte) *Field`: `key` and `val` start as nil slices. -/
def Unmarshal (line : Bytes) : Field :=
  let vars := unpack (bytes.Trim line Separator) Separator [[], []]
  { Key := vars.getD 0 [], Value := vars.getD 1 [] }

/-- `func (field *Field) String() string`: `fmt.Sprintf("%s%s%s", Key, sep, Value)`
where `sep` is `Separator` only when `Value` is non-empty. -/
def Field.String (f : Field) : Bytes :=
  let sep : Bytes := if f.Value.length > 0 then Separator else []
  f.Key ++ sep ++ f.Value

/-- `func (field *Field) Marshal() []byte`. -/
def Field.Marshal (f : Field) : Bytes := f.String

end field

/-- Go's `error` interface value: `none` is `nil`, `some msg` an error with that message. -/
abbrev error := Option String

/-! ## Package `fields` -/

namespace fields

/-- `const Separator = "\r\n"`. -/
def Separator : Bytes := ascii "\r\n"

/-- `type Fields []*field.Field` (the pointers are never nil: they come from
`field.New` and `field.Unmarshal`). -/
abbrev Fields := List field.Field

/-- `func (f *Fields) AddField(fs ...*field.Field)`: `*f = append(*f, fs...)`. -/
def Fields.AddField (f : Fields) (fs : List field.Field) : Fields := f ++ fs

/-- `func (f *Fields) AddFields(ff *Fields)`. -/
def Fields.AddFields (f ff : Fields) : Fields := Fields.AddField f ff

/-- `func New(fs ...*field.Field) *Fields`: starts from the empty `Fields` and
calls `AddField` for each argument in turn. -/
def New (fs : List field.Field) : Fields :=
  fs.foldl (fun f ff => Fields.AddField f [ff]) []

/-- `func Unmarshal(str []byte) *Fields`: every line of
`bytes.Split(bytes.Trim(str, Separator), Separator)` is parsed and appended. -/
def Unmarshal (str : Bytes) : Fields :=
  (bytes.Split (bytes.Trim str Separator) Separator).foldl
    (fun fields line => fields ++ [field.Unmarshal line]) []

/-- `func (f *Fields) Marshal() []byte`. -/
def Fields.Marshal (f : Fields) : Bytes :=
  bytes.Join (f.map field.Field.Marshal) Separator

/-- `func (f *Fields) String() string`. -/
def Fields.String (f : Fields) : Bytes := Fields.Marshal f

/-- `func (f *Fields) Find(key string) (value string, err error)`: the loop
returns at the first Field whose Key equals `key`. -/
def Fields.Find : Fields → Bytes → Bytes × error
  | [], _ => ([], some "field not found")
  | f :: rest, key => if f.Key = key then (f.Value, none) else Fields.Find rest key

end fields

/-! ## Package `message` -/

namespace message

/-- `const Separator = fields.Separator + fields.Separator`. -/
def Separator : Bytes := fields.Separator ++ fields.Separator

/-- `type Message struct { fields *fields.Fields; raw []byte }`; a nil `raw`
is the empty list. -/
structure Message where
  fields : fields.Fields
  raw : Bytes
deriving DecidableEq, Repr

/-- `func New(fs ...*field.Field) *Message`. -/
def New (fs : List field.Field) : Message :=
  { fields := fields.New fs, raw := [] }

/-- `func Unmarshal(str []byte) *Message`. -/
def Unmarshal (str : Bytes) : Message :=
  let s := bytes.Trim str Separator
  { fields := fields.Unmarshal s, raw := str ++ [] }

/-- `func (msg *Message) Marshal() []byte`. -/
def Message.Marshal (msg : Message) : Bytes :=
  fields.Fields.Marshal msg.fields ++ Separator

/-- `func (msg *Message) String() string`: `fmt.Sprintf("%s%s", fields.String(), Separator)`. -/
def Message.String (msg : Message) : Bytes :=
  fields.Fields.String msg.fields ++ Separator

/-- `func (msg *Message) GetFields() *fields.Fields`. -/
def Message.GetFields (msg : Message) : fields.Fields := msg.fields

/-- `func (msg *Message) GetField(key string) (val string, err error)`. -/
def Message.GetField (msg : Message) (key : Bytes) : Bytes × error :=
  fields.Fields.Find msg.fields key

/-- `func (msg *Message) GetRaw() []byte`. -/
def Message.GetRaw (msg : Message) : Bytes := msg.raw

/-- `func (msg *Message) AddFields(f *fields.Fields)`. -/
def Message.AddFields (msg : Message) (f : fields.Fields) : Message :=
  { msg with fields := fields.Fields.AddFields msg.fields f }

/-- `func (msg *Message) AddField(f ...*field.Field)`. -/
def Message.AddField (msg : Message) (f : List field.Field) : Message :=
  { msg with fields := fields.Fields.AddField msg.fields f }

end message

/-! ## Package `bufio` (Go standard library): `Reader.ReadBytes` -/

namespace bufio

/-- The error returned by a read: `io.EOF`, a `net.Error` whose `Timeout()` is
true (the read deadline expired), or any other error. -/
inductive ReadErr where
  | EOF
  | timeout
  | other
deriving DecidableEq, Repr

/-- What one `Read` of the underlying connection returns: some bytes (at least
one, no error) or an error. -/
inductive ReadOutcome where
  | data (b : Bytes)
  | fail (e : ReadErr)
deriving DecidableEq, Repr

/-- A `bufio.Reader`: the bytes it has read from the connection and not yet
handed out, and what the coming `Read`s of the connection will return. -/
structure Reader where
  buf : Bytes
  rd : List ReadOutcome
deriving DecidableEq, Repr

/-- The bytes of `buf` up to and including the first `delim`, and the bytes
after it (`bytes.IndexByte` in `ReadSlice`). -/
def cutAfter (delim : Nat) : Bytes → Option (Bytes × Bytes)
  | [] => none
  | b :: t =>
    if b = delim then some ([b], t)
    else (cutAfter delim t).map (fun lr => (b :: lr.1, lr.2))

/-- The loop of `ReadBytes` / `ReadSlice`: search the buffer for `delim`; when
it is there, return the bytes through it; otherwise read once more from the
connection, and on a read error return the buffered bytes with the error.
`none`: the outcomes in `rd` are used up and the call is still waiting. -/
def readBytesLoop (delim : Nat) :
    Bytes → List ReadOutcome → Option ((Bytes × Option ReadErr) × Reader)
  | buf, [] =>
    match cutAfter delim buf with
    | some (line, rest) => some ((line, none), { buf := rest, rd := [] })
    | none => none
  | buf, o :: rd =>
    match cutAfter delim buf with
    | some (line, rest) => some ((line, none), { buf := rest, rd := o :: rd })
    | none =>
      match o with
      | ReadOutcome.data b => readBytesLoop delim (buf ++ b) rd
      | ReadOutcome.fail e => some ((buf, some e), { buf := [], rd := rd })

/-- `func (b *Reader) ReadBytes(delim byte) ([]byte, error)`. -/
def Reader.ReadBytes (r : Reader) (delim : Nat) : Option ((Bytes × Option ReadErr) × Reader) :=
  readBytesLoop delim r.buf r.rd

end bufio

/-! ## Package `net` -/

namespace net

/-- The value of an `int32` after an operation whose mathematical result is `x`
(two's complement wrap-around). -/
def wrapInt32 (x : Int) : Int := (x + 2147483648) % 4294967296 - 2147483648

/-- `atomic.AddInt32(&x, delta)`: the new value of `x`. -/
def atomicAddInt32 (x delta : Int) : Int := wrapInt32 (x + delta)

/-- The socket `conn.tcp` as the peer and the operating system see it: the
byte strings handed to it by successful `Write` calls, in order, and whether
`Close` has been called on it. -/
structure TCPConn where
  written : List Bytes
  isClosed : Bool
deriving DecidableEq, Repr

/-- `type Connection struct`.  `tcp` is `none` while the pointer is nil,
`writeMux` is `true` while the mutex is held, `waitClose` is the counter of the
`sync.WaitGroup`.  Two fields record what the program does outside the struct:
`delivered` lists the arguments of the calls of `messageCallback`, in order,
and `reading` tells whether the goroutine `conn.read` has been started and has
not finished.  The timeouts and `addr` play no part in what follows and are
left out. -/
structure Connection where
  messageSeparator : Bytes
  readBuffer : Bytes
  tcp : Option TCPConn
  writeMux : Bool
  closing : Int
  closed : Int
  waitClose : Int
  delivered : List message.Message
  reading : Bool
deriving DecidableEq, Repr

/-- `func Connect(host string, port int, messageCallback MessageCallback)`.
`resolve` and `dial` are the errors returned by `n.ResolveIPAddr` and
`n.DialTCP` (`none` for nil). -/
def Connect (_host : Bytes) (_port : Int) (resolve dial : error) : Connection × error :=
  let conn : Connection :=
    { messageSeparator := ascii "\r\n"
      readBuffer := []
      tcp := none
      writeMux := false
      closing := 0
      closed := 1
      waitClose := 0
      delivered := []
      reading := false }
  match resolve with
  | some err => (conn, some err)
  | none =>
    match dial with
    | some err => (conn, some err)
    | none =>
      ({ conn with
          tcp := some { written := [], isClosed := false }
          closed := 0
          waitClose := conn.waitClose + 1
          reading := true }, none)

/-- The state change of `func (conn *Connection) Close()`: the atomic increment
of `closing`.  The call then blocks in `conn.waitClose.Wait()`. -/
def Connection.Close (conn : Connection) : Connection :=
  { conn with closing := atomicAddInt32 conn.closing 1 }

/-- `conn.waitClose.Wait()` returns only when the counter is zero. -/
def Connection.CloseReturns (conn : Connection) : Prop := conn.waitClose = 0

/-- `func (conn *Connection) SetMessageSeparator(sep string)`. -/
def Connection.SetMessageSeparator (conn : Connection) (sep : Bytes) : Connection :=
  { conn with messageSeparator := sep }

/-- What the socket does in one call of `writeBytes` that reaches it:
everything succeeds, `SetWriteDeadline` fails, or `Write` fails after sending
`n` bytes. -/
inductive WriteOutcome where
  | ok
  | deadlineError (msg : String)
  | writeError (n : Nat) (msg : String)
deriving DecidableEq, Repr

/-- `func (conn *Connection) writeBytes(cmd []byte) (err error)`, run from
`Lock` to the deferred `Done` and `Unlock` without interruption.  A nil or
closed `conn.tcp` makes `SetWriteDeadline` fail. -/
def Connection.writeBytes (conn : Connection) (cmd : Bytes) (out : WriteOutcome) :
    Connection × error :=
  let c1 : Connection := { conn with writeMux := true, waitClose := conn.waitClose + 1 }
  let r : Connection × error :=
    if c1.closing > 0 ∨ c1.closed > 0 then (c1, some "connection closed")
    else
      match c1.tcp with
      | none => (c1, some "invalid argument")
      | some sock =>
        if sock.isClosed then (c1, some "use of closed network connection")
        else
          match out with
          | WriteOutcome.deadlineError msg => (c1, some msg)
          | WriteOutcome.writeError n msg =>
            ({ c1 with tcp := some { sock with written := sock.written ++ [cmd.take n] } },
              some msg)
          | WriteOutcome.ok =>
            ({ c1 with tcp := some { sock with written := sock.written ++ [cmd] } }, none)
  ({ r.1 with waitClose := r.1.waitClose - 1, writeMux := false }, r.2)

/-- `func (conn *Connection) Write(msg *message.Message) (err error)`. -/
def Connection.Write (conn : Connection) (msg : message.Message) (out : WriteOutcome) :
    Connection × error :=
  conn.writeBytes msg.Marshal out

/-- The deferred function of `conn.read`: increments `closing`, takes the
write lock, closes the socket, increments `closed`, calls `waitClose.Done()`
and releases the lock. -/
def Connection.teardown (conn : Connection) : Connection :=
  { conn with
    closing := atomicAddInt32 conn.closing 1
    tcp := conn.tcp.map (fun sock => { sock with isClosed := true })
    closed := atomicAddInt32 conn.closed 1
    waitClose := conn.waitClose - 1
    writeMux := false
    reading := false }

/-- The body of the `for` loop of `conn.read` after `bufReader.ReadBytes` has
returned `(b, err)`: the new connection state and whether the loop goes on
(`false`: the function returns). -/
def Connection.afterRead (conn : Connection) (b : Bytes) (err : Option bufio.ReadErr) :
    Connection × Bool :=
  match err with
  | some bufio.ReadErr.EOF => (conn, false)
  | some bufio.ReadErr.timeout => (conn, true)
  | some bufio.ReadErr.other => (conn, true)
  | none =>
    let buf := conn.readBuffer ++ b
    if bytes.HasSuffix buf conn.messageSeparator then
      ({ conn with readBuffer := [], delivered := conn.delivered ++ [message.Unmarshal buf] },
        true)
    else ({ conn with readBuffer := buf }, true)

/-- The goroutine `conn.read`: the connection and its `bufio.Reader`. -/
structure ReadState where
  conn : Connection
  bufReader : bufio.Reader
deriving DecidableEq, Repr

/-- `conn.tcp.SetReadDeadline` fails when the socket is absent or closed. -/
def Connection.readDeadlineFails (conn : Connection) : Bool :=
  match conn.tcp with
  | none => true
  | some sock => sock.isClosed

/-- One iteration of the `for` loop of `conn.read`.  `none`: the iteration is
still waiting in `ReadBytes`; otherwise the new state and whether the loop
goes on. -/
def readIteration (st : ReadState) : Option (ReadState × Bool) :=
  if st.conn.closing > 0 then some (st, false)
  else if st.conn.readDeadlineFails then some (st, false)
  else
    match st.bufReader.ReadBytes 10 with
    | none => none
    | some ((b, err), r) =>
      let res := st.conn.afterRead b err
      some ({ conn := res.1, bufReader := r }, res.2)

/-- `func (conn *Connection) read(l *logrus.Entry)`: at most `n` iterations of
the loop; when the loop ends, the deferred teardown runs.  The state is
returned as it is when an iteration is still waiting for bytes, and when the
goroutine has already finished. -/
def read : Nat → ReadState → ReadState
  | 0, st => st
  | n + 1, st =>
    if st.conn.reading then
      match readIteration st with
      | none => st
      | some (st', true) => read n st'
      | some (st', false) => { st' with conn := st'.conn.teardown }
    else st

/-- The steps of the callers and of the read goroutine on a connection. -/
inductive Op where
  | close
  | write (msg : message.Message) (out : WriteOutcome)
  | teardown
deriving DecidableEq, Repr

/-- The effect of one step; the teardown runs only in the read goroutine,
hence at most once. -/
def Connection.step (conn : Connection) : Op → Connection
  | Op.close => conn.Close
  | Op.write msg out => (conn.Write msg out).1
  | Op.teardown => if conn.reading then conn.teardown else conn

/-- The effect of a sequence of steps. -/
def Connection.run (conn : Connection) (ops : List Op) : Connection :=
  ops.foldl Connection.step conn

end net

/-! ## Scenarios -/

namespace net

/-- The bytes the peer sends in the split-read scenario. -/
def scenarioBytes : Bytes := ascii "A: 1\r\nB: 2\r\n\r\n"

/-- The read goroutine at its start on connection `conn`, when the peer's
bytes reach the socket in two reads: the first `p` bytes, then the rest. -/
def splitRead (conn : Connection) (p : Nat) : ReadState :=
  { conn := conn
    bufReader :=
      { buf := []
        rd := [bufio.ReadOutcome.data (scenarioBytes.take p),
               bufio.ReadOutcome.data (scenarioBytes.drop p)] } }

/-- A read goroutine that has finished, or whose current iteration is waiting
for bytes that the recorded reads do not bring. -/
def ReadState.idle (st : ReadState) : Prop :=
  st.conn.reading = false ∨ readIteration st = none

instance (st : ReadState) : Decidable st.idle := by
  unfold ReadState.idle; infer_instance

/-- The number of `Close` steps in a sequence of steps. -/
def closeCount (ops : List Op) : Nat := ops.count Op.close

/-- The connection after a successful `Connect` followed by `2^31 - 1` calls of
`Close` (none of which has returned: the read goroutine has not torn down). -/
def manyCloses : Connection :=
  (Connect [] 0 none none).1.run (List.replicate 2147483647 Op.close)

end net

/-! ## Steps of the callers and of the read loop -/

namespace net

/-- A step on a connection: a step of a caller or the teardown (`Op`), or one
iteration of the read loop, which finds the `bufio.Reader` in state `r`. -/
inductive LoopOp where
  | op (o : Op)
  | iteration (r : bufio.Reader)
deriving DecidableEq, Repr

/-- The effect of one step.  An iteration is one round of `read`; when it
leaves the loop, the deferred teardown runs with it. -/
def Connection.loopStep (conn : Connection) : LoopOp → Connection
  | LoopOp.op o => conn.step o
  | LoopOp.iteration r => (read 1 { conn := conn, bufReader := r }).conn

/-- The effect of a sequence of steps. -/
def Connection.loopRun (conn : Connection) (ops : List LoopOp) : Connection :=
  ops.foldl Connection.loopStep conn

/-- The number of `Close` steps in a sequence of steps. -/
def loopCloseCount (ops : List LoopOp) : Nat := ops.count (LoopOp.op Op.close)

/-- The state of an opened connection after `n` `Close` steps: `closed` is 0
while the read goroutine runs and 1 afterwards, the socket is closed exactly
when the goroutine has finished, and `closing` counts the `Close` steps and
the teardown, modulo `2^32`. -/
structure Counted (c : Connection) (n : Nat) : Prop where
  closedVal : c.closed = if c.reading then 0 else 1
  sock : ∃ sock, c.tcp = some sock ∧ sock.isClosed = !c.reading
  closingVal : c.closing = wrapInt32 (n + (if c.reading then 0 else 1))

/-- The connection after a successful `Connect`, `2^31` calls of `Close` (none
of which has returned), still open: `closing` has wrapped to `-2^31`. -/
def wrappedOpen : Connection := manyCloses.run [Op.close]

/-- The steps of a connection whose peer closes the stream at once, so that
the read loop tears the connection down, and on which `Close` is then called
`2^31 - 1` times. -/
def eofThenCloses : List LoopOp :=
  LoopOp.iteration { buf := [], rd := [bufio.ReadOutcome.fail bufio.ReadErr.EOF] } ::
    (List.replicate 2147483647 Op.close).map LoopOp.op

end net

/-! ## Concurrent executions of `Write`, `Close` and the read goroutine

The sequential functions above run each call without interruption.  Here the
calls are cut into their atomic steps (operations of `sync.RWMutex`,
`sync.WaitGroup`, `sync/atomic` and of the socket, and the return to the
caller) and the steps of any number of `Write` calls, of one `Close` call and
of the read goroutine are interleaved in an arbitrary order.

`sync.WaitGroup` follows the Go standard library: `Add` changes the counter;
`Wait` returns at once if it reads the counter as zero and otherwise registers
as a waiter and sleeps; the `Done` that brings the counter to zero releases the
waiter; the released waiter checks the state again and panics if it is no
longer zero. -/

namespace net

/-- A goroutine that can hold `conn.writeMux`: the `i`-th call of `Write`, or
the read goroutine. -/
inductive Tid where
  | writer (i : Nat)
  | reader
deriving DecidableEq, Repr

/-- Where one call of `writeBytes` stands. -/
inductive WPc where
  /-- Before `conn.writeMux.Lock()` has returned (called or not yet called). -/
  | start
  /-- Holds the lock, before `conn.waitClose.Add(1)`. -/
  | locked
  /-- Before `atomic.LoadInt32(&conn.closing)`. -/
  | added
  /-- `closing` was not positive; before `atomic.LoadInt32(&conn.closed)`. -/
  | closingRead
  /-- The guard was true: returns "connection closed"; deferred `Done` pending. -/
  | failing
  /-- On the guarded return, `Done` called; deferred `Unlock` pending. -/
  | failDone
  /-- The guard was false; before `conn.tcp.SetWriteDeadline`. -/
  | passed
  /-- Before `conn.tcp.Write(cmd)`. -/
  | deadlineSet
  /-- The socket was used and the return value is fixed; deferred `Done` pending. -/
  | ioDone (err : error)
  /-- `Done` called after the socket was used; deferred `Unlock` pending. -/
  | ioUnlocking (err : error)
  /-- Both deferred calls have run and the lock is released; the return of
  `err` to the caller is still to come. -/
  | unlocked (err : error)
  /-- The call has returned `err` to its caller. -/
  | returned (err : error)
deriving DecidableEq, Repr

/-- Where the call of `Close` stands. -/
inductive CPc where
  /-- Before `atomic.AddInt32(&conn.closing, 1)`. -/
  | idle
  /-- `closing` incremented; before `conn.waitClose.Wait()` reads the counter. -/
  | signalled
  /-- In `Wait`: the counter was not zero, the call sleeps as a waiter. -/
  | waiting
  /-- In `Wait`: a `Done` brought the counter to zero and released the waiter,
  which has not yet run its check of the counter. -/
  | woken
  /-- `Close` has returned. -/
  | returned
  /-- `Wait` found the counter changed after it was released and panicked
  ("sync: WaitGroup is reused before previous Wait has returned"). -/
  | panicked
deriving DecidableEq, Repr

/-- Where the read goroutine stands. -/
inductive RPc where
  /-- At the top of the `for` loop, before `atomic.LoadInt32(&conn.closing)`. -/
  | loopTop
  /-- Read deadline set; in `bufReader.ReadBytes`. -/
  | reading
  /-- The loop has been left; the deferred function starts. -/
  | exiting
  /-- `closing` incremented; in `conn.writeMux.Lock()`. -/
  | signalled
  /-- Holds the lock, before `conn.tcp.Close()`. -/
  | locked
  /-- Socket closed, before `atomic.AddInt32(&conn.closed, 1)`. -/
  | sockClosed
  /-- `closed` incremented, before `conn.waitClose.Done()`. -/
  | closedSet
  /-- `Done` called; deferred `Unlock` pending. -/
  | doneCalled
  /-- The goroutine has finished. -/
  | finished
deriving DecidableEq, Repr

/-- What happens on the connection, in order of time. -/
inductive Event where
  /-- Call `i` of `Write` used the socket (`SetWriteDeadline` or `Write`). -/
  | io (i : Nat)
  /-- The teardown closed the socket. -/
  | sockClose
  /-- `Close()` returned. -/
  | closeReturn
  /-- `Close()` panicked inside `conn.waitClose.Wait()`. -/
  | closePanic
  /-- Call `i` of `Write` ran its deferred `Unlock`, its result `err` fixed. -/
  | unlock (i : Nat) (err : error)
  /-- Call `i` of `Write` returned `err` to its caller. -/
  | writeReturn (i : Nat) (err : error)
deriving DecidableEq, Repr

/-- The shared variables of a connection, the position of every goroutine, and
the events so far. -/
structure Sys where
  closing : Int
  closed : Int
  writeMux : Option Tid
  waitClose : Int
  w : Nat → WPc
  c : CPc
  r : RPc
  log : List Event

/-- The system right after a successful `Connect`: the counters and the
barrier are those of the returned connection, the lock is free, the read
goroutine is at the top of its loop, no `Write` or `Close` has begun. -/
def Sys.init : Sys :=
  { closing := (Connect [] 0 none none).1.closing
    closed := (Connect [] 0 none none).1.closed
    writeMux := none
    waitClose := (Connect [] 0 none none).1.waitClose
    w := fun _ => WPc.start
    c := CPc.idle
    r := RPc.loopTop
    log := [] }

/-- Which goroutine takes its next atomic step, with what the environment
answers if the step asks it: for a writer the error value of the socket
operation, for the reader whether `SetReadDeadline` fails and the error of
`ReadBytes`. -/
inductive Act where
  | writer (i : Nat) (sock : error)
  | closer
  | reader (deadlineFails : Bool) (rd : Option bufio.ReadErr)
deriving DecidableEq, Repr

/-- What a `Done` that leaves the counter at `n` does to the call of `Close`:
a sleeping waiter is released when the counter has reached zero
(`sync.WaitGroup.Add` with a negative delta). -/
def CPc.wake : CPc → Int → CPc
  | CPc.waiting, n => if n = 0 then CPc.woken else CPc.waiting
  | c, _ => c

/-- `conn.waitClose.Done()`. -/
def Sys.waitCloseDone (s : Sys) : Sys :=
  { s with waitClose := s.waitClose - 1, c := s.c.wake (s.waitClose - 1) }

/-- The next atomic step of call `i` of `writeBytes`.  The deferred calls run
in the order `Done`, `Unlock`; the return to the caller is a step of its own
after them. -/
def Sys.writerStep (s : Sys) (i : Nat) (sock : error) : Sys :=
  match s.w i with
  | WPc.start =>
    if s.writeMux = none then
      { s with writeMux := some (Tid.writer i), w := Function.update s.w i WPc.locked }
    else s
  | WPc.locked =>
    { s with waitClose := s.waitClose + 1, w := Function.update s.w i WPc.added }
  | WPc.added =>
    if s.closing > 0 then { s with w := Function.update s.w i WPc.failing }
    else { s with w := Function.update s.w i WPc.closingRead }
  | WPc.closingRead =>
    if s.closed > 0 then { s with w := Function.update s.w i WPc.failing }
    else { s with w := Function.update s.w i WPc.passed }
  | WPc.failing =>
    { s.waitCloseDone with w := Function.update s.w i WPc.failDone }
  | WPc.failDone =>
    { s with
      writeMux := none
      w := Function.update s.w i (WPc.unlocked (some "connection closed"))
      log := s.log ++ [Event.unlock i (some "connection closed")] }
  | WPc.passed =>
    match sock with
    | some e =>
      { s with w := Function.update s.w i (WPc.ioDone (some e)), log := s.log ++ [Event.io i] }
    | none =>
      { s with w := Function.update s.w i WPc.deadlineSet, log := s.log ++ [Event.io i] }
  | WPc.deadlineSet =>
    { s with w := Function.update s.w i (WPc.ioDone sock), log := s.log ++ [Event.io i] }
  | WPc.ioDone err =>
    { s.waitCloseDone with w := Function.update s.w i (WPc.ioUnlocking err) }
  | WPc.ioUnlocking err =>
    { s with
      writeMux := none
      w := Function.update s.w i (WPc.unlocked err)
      log := s.log ++ [Event.unlock i err] }
  | WPc.unlocked err =>
    { s with
      w := Function.update s.w i (WPc.returned err)
      log := s.log ++ [Event.writeReturn i err] }
  | WPc.returned _ => s

/-- The next atomic step of `Close`: the increment of `closing`, then
`conn.waitClose.Wait()`.  `Wait` returns at once when it reads the counter as
zero and sleeps otherwise; a sleeping `Wait` does nothing until a `Done`
releases it; a released `Wait` checks the counter again, returns if it is
still zero and panics if an `Add` has raised it in between. -/
def Sys.closerStep (s : Sys) : Sys :=
  match s.c with
  | CPc.idle => { s with closing := atomicAddInt32 s.closing 1, c := CPc.signalled }
  | CPc.signalled =>
    if s.waitClose = 0 then { s with c := CPc.returned, log := s.log ++ [Event.closeReturn] }
    else { s with c := CPc.waiting }
  | CPc.waiting => s
  | CPc.woken =>
    if s.waitClose = 0 then { s with c := CPc.returned, log := s.log ++ [Event.closeReturn] }
    else { s with c := CPc.panicked, log := s.log ++ [Event.closePanic] }
  | CPc.returned => s
  | CPc.panicked => s

/-- The next atomic step of the read goroutine. -/
def Sys.readerStep (s : Sys) (deadlineFails : Bool) (rd : Option bufio.ReadErr) : Sys :=
  match s.r with
  | RPc.loopTop =>
    if s.closing > 0 then { s with r := RPc.exiting }
    else if deadlineFails then { s with r := RPc.exiting }
    else { s with r := RPc.reading }
  | RPc.reading =>
    match rd with
    | some bufio.ReadErr.EOF => { s with r := RPc.exiting }
    | _ => { s with r := RPc.loopTop }
  | RPc.exiting => { s with closing := atomicAddInt32 s.closing 1, r := RPc.signalled }
  | RPc.signalled =>
    if s.writeMux = none then { s with writeMux := some Tid.reader, r := RPc.locked }
    else s
  | RPc.locked => { s with r := RPc.sockClosed, log := s.log ++ [Event.sockClose] }
  | RPc.sockClosed => { s with closed := atomicAddInt32 s.closed 1, r := RPc.closedSet }
  | RPc.closedSet => { s.waitCloseDone with r := RPc.doneCalled }
  | RPc.doneCalled => { s with writeMux := none, r := RPc.finished }
  | RPc.finished => s

/-- One atomic step of the system.  A goroutine that is blocked (waiting for
the lock or sleeping in `Wait`) or done leaves the state as it is, and so does
every goroutine once `Close` has panicked: the panic ends the program. -/
def Sys.step (s : Sys) (a : Act) : Sys :=
  if s.c = CPc.panicked then s
  else
    match a with
    | Act.writer i sock => s.writerStep i sock
    | Act.closer => s.closerStep
    | Act.reader deadlineFails rd => s.readerStep deadlineFails rd

/-- The system after a sequence of atomic steps. -/
def Sys.exec (s : Sys) (acts : List Act) : Sys := acts.foldl Sys.step s

/-- The call holds `conn.writeMux`. -/
def WPc.holds : WPc → Bool
  | WPc.start => false
  | WPc.unlocked _ => false
  | WPc.returned _ => false
  | _ => true

/-- The call has called `waitClose.Add(1)` and not yet `Done`. -/
def WPc.token : WPc → Bool
  | WPc.added => true
  | WPc.closingRead => true
  | WPc.failing => true
  | WPc.passed => true
  | WPc.deadlineSet => true
  | WPc.ioDone _ => true
  | _ => false

/-- The read goroutine holds `conn.writeMux`. -/
def RPc.holds : RPc → Bool
  | RPc.locked => true
  | RPc.sockClosed => true
  | RPc.closedSet => true
  | RPc.doneCalled => true
  | _ => false

/-- A schedule of rounds for two calls of `Write`. -/
def roundRobin (rounds : Nat) : List (List Act) :=
  List.replicate rounds
    [Act.writer 0 none, Act.writer 1 none, Act.closer, Act.reader false none]

end net

/-! ## Hypotheses used by the round-trip statements -/

/-- The byte string `s` has no leading and no trailing byte that belongs to `cutset`. -/
def NoEdge (cutset s : Bytes) : Prop :=
  ∀ c ∈ cutset, s.head? ≠ some c ∧ s.getLast? ≠ some c

instance (cutset s : Bytes) : Decidable (NoEdge cutset s) := by
  unfold NoEdge; infer_instance

/-- In the words of the specification: `t` is `line` with every leading and
trailing byte that belongs to `cutset` removed. -/
def IsTrimmed (cutset line t : Bytes) : Prop :=
  ∃ pre post, line = pre ++ t ++ post ∧ (∀ c ∈ pre, c ∈ cutset) ∧ (∀ c ∈ post, c ∈ cutset) ∧
    NoEdge cutset t

/-- In the words of the specification: `k` is the part of `s` before the first
occurrence of `sep` and `v` is everything after that occurrence. -/
def FirstCut (sep s k v : Bytes) : Prop :=
  s = k ++ sep ++ v ∧ ∀ k' v', s = k' ++ sep ++ v' → k.length ≤ k'.length

/-- In the words of the specification: `segs` are the segments obtained by
splitting `s` on each occurrence of `sep`: with `sep` put back between
neighbours they give `s`, and `sep` occurs in none of them. -/
def IsSplit (sep s : Bytes) (segs : List Bytes) : Prop :=
  segs ≠ [] ∧ sep.intercalate segs = s ∧ ∀ seg ∈ segs, ¬ sep <:+: seg

/-! ## The standard-library functions on sample inputs -/

/-- The embedded `bytes` functions on inputs whose results the Go
documentation fixes. -/
theorem bytes.bytes_examples :
    bytes.Trim (ascii ": a: b : ") (ascii ": ") = ascii "a: b" ∧
    bytes.Trim (ascii "\r\n\r\n") (ascii "\r\n") = [] ∧
    bytes.SplitN (ascii "a: b: c") (ascii ": ") 2 = [ascii "a", ascii "b: c"] ∧
    bytes.SplitN (ascii "abc") (ascii ": ") 2 = [ascii "abc"] ∧
    bytes.SplitN [] (ascii ": ") 2 = [[]] ∧
    bytes.Split (ascii "a\r\n\r\nb") (ascii "\r\n") = [ascii "a", [], ascii "b"] ∧
    bytes.Split (ascii "a\r\n") (ascii "\r\n") = [ascii "a", []] ∧
    bytes.Split [] (ascii "\r\n") = [[]] ∧
    bytes.Join [ascii "a", ascii "b", ascii "c"] (ascii "\r\n") = ascii "a\r\nb\r\nc" ∧
    bytes.Join [] (ascii "\r\n") = [] ∧
    bytes.HasSuffix (ascii "A: 1\r\n") (ascii "\r\n") = true ∧
    bytes.HasSuffix (ascii "A: 1\r\n") (ascii "\r\n\r\n") = false := by
  decide

/-- The embedded `ReadBytes` on sample inputs: a buffered line is returned
without a read; a line split over two reads is returned whole; a read error
returns the buffered bytes with the error; without further reads the call
waits. -/
theorem bufio.ReadBytes_examples :
    bufio.Reader.ReadBytes ⟨ascii "a\nb", []⟩ 10 = some ((ascii "a\n", none), ⟨ascii "b", []⟩) ∧
    bufio.Reader.ReadBytes ⟨ascii "a", [.data (ascii "b"), .data (ascii "c\nd")]⟩ 10
      = some ((ascii "abc\n", none), ⟨ascii "d", []⟩) ∧
    bufio.Reader.ReadBytes ⟨ascii "a", [.fail .timeout, .data (ascii "b\n")]⟩ 10
      = some ((ascii "a", some .timeout), ⟨[], [.data (ascii "b\n")]⟩) ∧
    bufio.Reader.ReadBytes ⟨ascii "a", []⟩ 10 = none := by
  decide

/-! ## Lemmas on the `bytes` functions -/

namespace bytes

theorem inCutset_iff (cutset : Bytes) (b : Nat) : inCutset cutset b = true ↔ b ∈ cutset := by
  simp [inCutset]

theorem Trim_eq_self {cutset s : Bytes} (h : NoEdge cutset s) : Trim s cutset = s := by
  have hr : TrimRight s cutset = s := by
    unfold TrimRight
    rw [List.rdropWhile_eq_self_iff]
    intro hl hp
    rw [inCutset_iff] at hp
    exact (h _ hp).2 (List.getLast?_eq_getLast _ hl)
  unfold Trim
  rw [hr]
  unfold TrimLeft
  rw [List.dropWhile_eq_self_iff]
  intro hl hp
  rw [inCutset_iff] at hp
  apply (h _ hp).1
  cases s with
  | nil => simp at hl
  | cons a t => simp

theorem Index_eq_none {s sep : Bytes} (h : ¬ sep <:+: s) : Index s sep = none := by
  induction s with
  | nil =>
    unfold Index
    have : sep.isPrefixOf [] = false := by
      rw [Bool.eq_false_iff]; intro hp
      exact h (List.isPrefixOf_iff_prefix.mp hp).isInfix
    simp [this]
  | cons a t ih =>
    unfold Index
    have hp : sep.isPrefixOf (a :: t) = false := by
      rw [Bool.eq_false_iff]; intro hp
      exact h (List.isPrefixOf_iff_prefix.mp hp).isInfix
    have ht : ¬ sep <:+: t := fun hi => h (hi.trans (List.suffix_cons a t).isInfix)
    simp [hp, ih ht]

/-- The first occurrence of a two-byte separator in `k ++ [a, b] ++ v` is at
`k.length` when `k` does not contain it and does not end in its first byte. -/
theorem Index_append_sep2 (a b : Nat) (k v : Bytes) (hk : ¬ [a, b] <:+: k)
    (hl : k.getLast? ≠ some a) : Index (k ++ a :: b :: v) [a, b] = some k.length := by
  induction k with
  | nil => unfold Index; simp [List.isPrefixOf]
  | cons c k ih =>
    have hk' : ¬ [a, b] <:+: k := fun hi => hk (hi.trans (List.suffix_cons c k).isInfix)
    have hl' : k.getLast? ≠ some a := by
      cases k with
      | nil => simp
      | cons d k => simpa [List.getLast?_cons_cons] using hl
    have hp : List.isPrefixOf [a, b] (c :: k ++ a :: b :: v) = false := by
      rw [Bool.eq_false_iff]; intro hp
      cases k with
      | nil =>
        simp [List.isPrefixOf] at hp
        exact hl (by simp [hp.1])
      | cons d k =>
        simp [List.isPrefixOf] at hp
        obtain ⟨h1, h2⟩ := hp
        subst h1 h2
        exact hk (List.prefix_append [a, b] k).isInfix
    unfold Index
    simp only [List.cons_append] at hp ⊢
    simp [hp, ih hk' hl']

end bytes

namespace bytes

theorem genSplitLoop_of_none {s sep : Bytes} (h : Index s sep = none) (k : Nat) :
    genSplitLoop sep k s = [s] := by
  cases k <;> simp [genSplitLoop, h]

/-- `SplitN(s, sep, 2)` when `sep` does not occur in `s`: the single piece `s`. -/
theorem SplitN_two_of_none {s sep : Bytes} (h : Index s sep = none) :
    SplitN s sep 2 = [s] := by
  simp only [SplitN, genSplit]
  rw [if_neg (by decide)]
  exact genSplitLoop_of_none h _

/-- `SplitN(s, sep, 2)` when the first occurrence of `sep` is at `m`. -/
theorem SplitN_two_of_some {s sep : Bytes} {m : Nat} (h : Index s sep = some m)
    (hlen : 1 ≤ s.length) : SplitN s sep 2 = [s.take m, s.drop (m + sep.length)] := by
  simp only [SplitN, genSplit]
  rw [if_neg (by decide)]
  have h2 : ¬ (2 > s.length + 1) := by omega
  simp [h2, genSplitLoop, h]

end bytes

namespace field

theorem field_Separator_eq : Separator = [58, 32] := by decide

theorem field_Unmarshal_eq (line : Bytes) :
    Unmarshal line =
      { Key := ((bytes.SplitN (bytes.Trim line Separator) Separator 2) ++
          List.drop (bytes.SplitN (bytes.Trim line Separator) Separator 2).length
            [[], []]).getD 0 [],
        Value := ((bytes.SplitN (bytes.Trim line Separator) Separator 2) ++
          List.drop (bytes.SplitN (bytes.Trim line Separator) Separator 2).length
            [[], []]).getD 1 [] } := rfl

/-- Parsing a line without leading or trailing cutset bytes in which the
separator does not occur: the whole line is the key. -/
theorem Unmarshal_of_no_sep {line : Bytes} (he : NoEdge Separator line)
    (hs : ¬ Separator <:+: line) : Unmarshal line = { Key := line, Value := [] } := by
  rw [field_Unmarshal_eq, bytes.Trim_eq_self he, bytes.SplitN_two_of_none (bytes.Index_eq_none hs)]
  rfl

/-- Parsing `k ++ ": " ++ v` when `k` is free of the separator and the ends of
the line are not cutset bytes. -/
theorem Unmarshal_append {k v : Bytes} (he : NoEdge Separator (k ++ Separator ++ v))
    (hs : ¬ Separator <:+: k) (hl : k.getLast? ≠ some 58) :
    Unmarshal (k ++ Separator ++ v) = { Key := k, Value := v } := by
  have hi : bytes.Index (k ++ Separator ++ v) Separator = some k.length := by
    rw [field_Separator_eq] at hs ⊢
    simpa using bytes.Index_append_sep2 58 32 k v hs hl
  have hlen : 1 ≤ (k ++ Separator ++ v).length := by simp [field_Separator_eq]; omega
  have hd : List.drop (k.length + Separator.length) (k ++ Separator ++ v) = v := by
    rw [List.append_assoc, List.drop_append, List.drop_left]
  have ht : List.take k.length (k ++ Separator ++ v) = k := by
    rw [List.append_assoc, List.take_left]
  rw [field_Unmarshal_eq, bytes.Trim_eq_self he, bytes.SplitN_two_of_some hi hlen, hd, ht]
  rfl

theorem NoEdge_marshal {k v : Bytes} (hk : k ≠ []) (hv : v ≠ [])
    (hKe : NoEdge Separator k) (hVe : NoEdge Separator v) :
    NoEdge Separator (k ++ Separator ++ v) := by
  intro c hc
  obtain ⟨a, k', rfl⟩ := List.exists_cons_of_ne_nil hk
  refine ⟨by simpa using (hKe c hc).1, ?_⟩
  have : (a :: k' ++ Separator ++ v).getLast? = v.getLast? := by
    rw [List.getLast?_append_of_ne_nil _ hv]
  rw [this]
  exact (hVe c hc).2

end field

namespace field

theorem Marshal_nil_value (k : Bytes) : Field.Marshal ⟨k, []⟩ = k := by
  simp [Field.Marshal, Field.String]

theorem Marshal_ne_nil_value (k v : Bytes) (hv : v ≠ []) :
    Field.Marshal ⟨k, v⟩ = k ++ Separator ++ v := by
  have hpos : v.length > 0 := List.length_pos.mpr hv
  simp [Field.Marshal, Field.String, hpos]

/-- Parsing the serialization of a Field gives the Field back when its Key is
non-empty and free of the separator and neither Key nor Value starts or ends
with a cutset byte. -/
theorem Unmarshal_Marshal (f : Field) (hK : f.Key ≠ [])
    (hKs : ¬ Separator <:+: f.Key)
    (hKe : NoEdge Separator f.Key) (hVe : NoEdge Separator f.Value) :
    Unmarshal f.Marshal = f := by
  obtain ⟨k, v⟩ := f
  simp only at hK hKs hKe hVe
  by_cases hv : v = []
  · subst hv
    rw [Marshal_nil_value, Unmarshal_of_no_sep hKe hKs]
  · have hl : k.getLast? ≠ some 58 := (hKe 58 (by decide)).2
    rw [Marshal_ne_nil_value k v hv, Unmarshal_append (NoEdge_marshal hK hv hKe hVe) hKs hl]

end field

/-- C1. Field round trip: for a Field with a non-empty Key, whose Key and Value
do not contain the separator ": " and have no leading or trailing ':' or ' ',
parsing its serialization gives back the same Key and the same Value. -/
theorem field.C1_roundtrip (f : field.Field) (hK : f.Key ≠ [])
    (hKs : ¬ field.Separator <:+: f.Key) (_hVs : ¬ field.Separator <:+: f.Value)
    (hKe : NoEdge field.Separator f.Key) (hVe : NoEdge field.Separator f.Value) :
    (field.Unmarshal f.Marshal).Key = f.Key ∧ (field.Unmarshal f.Marshal).Value = f.Value := by
  rw [field.Unmarshal_Marshal f hK hKs hKe hVe]
  exact ⟨rfl, rfl⟩

/-- Witness for C1 at the Field `{Key: "Host", Value: "example.org:80"}`. -/
theorem field.C1_roundtrip_witness :
    (field.Unmarshal (field.Field.Marshal ⟨ascii "Host", ascii "example.org:80"⟩)).Key
        = ascii "Host" ∧
      (field.Unmarshal (field.Field.Marshal ⟨ascii "Host", ascii "example.org:80"⟩)).Value
        = ascii "example.org:80" :=
  field.C1_roundtrip ⟨ascii "Host", ascii "example.org:80"⟩ (by decide) (by decide) (by decide)
    (by decide) (by decide)

namespace bytes

theorem Join_nil (sep : Bytes) : Join [] sep = [] := rfl

theorem Join_singleton (a sep : Bytes) : Join [a] sep = a := by
  simp [Join, List.intercalate]

theorem Join_cons_cons (a b : Bytes) (l : List Bytes) (sep : Bytes) :
    Join (a :: b :: l) sep = a ++ sep ++ Join (b :: l) sep := by
  simp [Join, List.intercalate]

/-- A two-byte pattern does not occur in `x ++ y` when it occurs in neither
part and cannot straddle the seam. -/
theorem not_infix2_append (a b : Nat) (x y : Bytes) (hx : ¬ [a, b] <:+: x)
    (hy : ¬ [a, b] <:+: y) (hs : x.getLast? ≠ some a ∨ y.head? ≠ some b) :
    ¬ [a, b] <:+: x ++ y := by
  induction x with
  | nil => simpa using hy
  | cons c x ih =>
    have hx' : ¬ [a, b] <:+: x := fun hi => hx (hi.trans (List.suffix_cons c x).isInfix)
    have hs' : x.getLast? ≠ some a ∨ y.head? ≠ some b := by
      cases x with
      | nil => left; simp
      | cons d x => simpa [List.getLast?_cons_cons] using hs
    rw [List.cons_append, List.infix_cons_iff]
    rintro (hp | hi)
    · cases x with
      | nil =>
        cases y with
        | nil => simp at hp
        | cons e y =>
          simp at hp
          obtain ⟨h1, h2⟩ := hp
          subst h1 h2
          simp at hs
      | cons d x =>
        simp at hp
        obtain ⟨h1, h2⟩ := hp
        subst h1 h2
        exact hx (List.prefix_append [a, b] x).isInfix
    · exact ih hx' hs' hi

/-- Splitting a joined list of lines gives the lines back, when no line
contains the two-byte separator or ends in its first byte. -/
theorem genSplitLoop_Join (a b : Nat) :
    ∀ (lines : List Bytes), lines ≠ [] →
      (∀ l ∈ lines, ¬ [a, b] <:+: l ∧ l.getLast? ≠ some a) →
      ∀ k, lines.length ≤ k + 1 → genSplitLoop [a, b] k (Join lines [a, b]) = lines
  | [], hne, _, _, _ => absurd rfl hne
  | [l], _, h, k, _ => by
    rw [Join_singleton]
    exact genSplitLoop_of_none (Index_eq_none (h l (by simp)).1) k
  | l :: l' :: ls, _, h, k, hk => by
    obtain ⟨hl1, hl2⟩ := h l (by simp)
    have hi : Index (l ++ a :: b :: Join (l' :: ls) [a, b]) [a, b] = some l.length :=
      Index_append_sep2 a b l _ hl1 hl2
    have hrec := genSplitLoop_Join a b (l' :: ls) (by simp)
      (fun x hx => h x (List.mem_cons_of_mem _ hx))
    cases k with
    | zero => simp at hk
    | succ k =>
      rw [Join_cons_cons]
      simp only [List.append_assoc, List.cons_append, List.nil_append, genSplitLoop, hi]
      rw [List.take_left]
      have hd : List.drop (l.length + [a, b].length) (l ++ a :: b :: Join (l' :: ls) [a, b])
          = Join (l' :: ls) [a, b] := by
        rw [List.drop_append]; rfl
      rw [hd, hrec k (by simpa using hk)]

theorem countLoop_Join (a b : Nat) :
    ∀ (lines : List Bytes), lines ≠ [] →
      (∀ l ∈ lines, ¬ [a, b] <:+: l ∧ l.getLast? ≠ some a) →
      ∀ fuel, lines.length ≤ fuel + 1 →
        countLoop [a, b] fuel (Join lines [a, b]) = lines.length - 1
  | [], hne, _, _, _ => absurd rfl hne
  | [l], _, h, fuel, _ => by
    rw [Join_singleton]
    cases fuel <;> simp [countLoop, Index_eq_none (h l (by simp)).1]
  | l :: l' :: ls, _, h, fuel, hk => by
    obtain ⟨hl1, hl2⟩ := h l (by simp)
    have hi : Index (l ++ a :: b :: Join (l' :: ls) [a, b]) [a, b] = some l.length :=
      Index_append_sep2 a b l _ hl1 hl2
    have hrec := countLoop_Join a b (l' :: ls) (by simp)
      (fun x hx => h x (List.mem_cons_of_mem _ hx))
    cases fuel with
    | zero => simp at hk
    | succ fuel =>
      rw [Join_cons_cons]
      simp only [List.append_assoc, List.cons_append, List.nil_append, countLoop, hi]
      have hd : List.drop (l.length + [a, b].length) (l ++ a :: b :: Join (l' :: ls) [a, b])
          = Join (l' :: ls) [a, b] := by
        rw [List.drop_append]; rfl
      rw [hd, hrec fuel (by simpa using hk)]
      simp

theorem length_le_length_Join (sep : Bytes) (hsep : 1 ≤ sep.length) :
    ∀ (lines : List Bytes), lines.length ≤ (Join lines sep).length + 1
  | [] => by simp
  | [l] => by simp
  | l :: l' :: ls => by
    have := length_le_length_Join sep hsep (l' :: ls)
    rw [Join_cons_cons]
    simp only [List.length_append, List.length_cons] at this ⊢
    omega

theorem Split_eq (s sep : Bytes) :
    Split s sep = genSplitLoop sep
      ((if Count s sep + 1 > s.length + 1 then s.length + 1 else Count s sep + 1) - 1) s := rfl

/-- `Split(Join(lines, sep), sep) = lines` for a two-byte separator, a
non-empty list of lines, none of which contains the separator or ends in its
first byte. -/
theorem Split_Join (a b : Nat) (lines : List Bytes) (hne : lines ≠ [])
    (h : ∀ l ∈ lines, ¬ [a, b] <:+: l ∧ l.getLast? ≠ some a) :
    Split (Join lines [a, b]) [a, b] = lines := by
  have hlen := length_le_length_Join [a, b] (by simp) lines
  have hc : Count (Join lines [a, b]) [a, b] = lines.length - 1 :=
    countLoop_Join a b lines hne h _ hlen
  have hpos : 1 ≤ lines.length := List.length_pos.mpr hne
  have h1 : lines.length - 1 + 1 = lines.length := by omega
  have h2 : ¬ (lines.length > (Join lines [a, b]).length + 1) := by omega
  rw [Split_eq, hc, h1, if_neg h2]
  exact genSplitLoop_Join a b lines hne h _ (by omega)

end bytes

theorem NoEdge_of_append_left {c1 c2 s : Bytes} (h : NoEdge (c1 ++ c2) s) : NoEdge c1 s :=
  fun c hc => h c (List.mem_append_left _ hc)

theorem NoEdge_of_append_right {c1 c2 s : Bytes} (h : NoEdge (c1 ++ c2) s) : NoEdge c2 s :=
  fun c hc => h c (List.mem_append_right _ hc)

namespace bytes

theorem Join_head? (l : Bytes) (ls : List Bytes) (sep : Bytes) (hl : l ≠ []) :
    (Join (l :: ls) sep).head? = l.head? := by
  obtain ⟨a, t, rfl⟩ := List.exists_cons_of_ne_nil hl
  cases ls with
  | nil => rw [Join_singleton]
  | cons l' ls => rw [Join_cons_cons]; simp

theorem Join_getLast? (sep : Bytes) :
    ∀ (lines : List Bytes), lines ≠ [] → (∀ l ∈ lines, l ≠ []) →
      ∃ l ∈ lines, (Join lines sep).getLast? = l.getLast?
  | [], hne, _ => absurd rfl hne
  | [l], _, _ => ⟨l, by simp, by rw [Join_singleton]⟩
  | l :: l' :: ls, _, h => by
    obtain ⟨x, hx, hlast⟩ := Join_getLast? sep (l' :: ls) (by simp)
      (fun y hy => h y (List.mem_cons_of_mem _ hy))
    refine ⟨x, List.mem_cons_of_mem _ hx, ?_⟩
    have hne : Join (l' :: ls) sep ≠ [] := by
      intro h0
      rw [h0] at hlast
      have := h x (List.mem_cons_of_mem _ hx)
      cases x with
      | nil => exact this rfl
      | cons a t =>
        rw [List.getLast?_eq_getLast _ (List.cons_ne_nil a t)] at hlast
        simp at hlast
    rw [Join_cons_cons, List.getLast?_append_of_ne_nil _ hne, hlast]

end bytes

namespace fields

theorem fields_Separator_eq : Separator = [13, 10] := by decide

theorem foldl_snoc_eq_map (g : Bytes → field.Field) (lines : List Bytes) (acc : Fields) :
    lines.foldl (fun fields line => fields ++ [g line]) acc = acc ++ lines.map g := by
  induction lines generalizing acc with
  | nil => simp
  | cons l ls ih => simp [ih]

theorem Unmarshal_eq_map (str : Bytes) :
    Unmarshal str = (bytes.Split (bytes.Trim str Separator) Separator).map field.Unmarshal := by
  simp [Unmarshal, foldl_snoc_eq_map]

theorem line_head? (f : field.Field) (hK : f.Key ≠ []) :
    (field.Field.Marshal f).head? = f.Key.head? := by
  obtain ⟨k, v⟩ := f
  obtain ⟨a, t, rfl⟩ := List.exists_cons_of_ne_nil hK
  simp [field.Field.Marshal, field.Field.String]

theorem line_getLast? (f : field.Field) :
    (field.Field.Marshal f).getLast? = f.Key.getLast? ∨
      (field.Field.Marshal f).getLast? = f.Value.getLast? := by
  obtain ⟨k, v⟩ := f
  by_cases hv : v = []
  · subst hv; left; rw [field.Marshal_nil_value]
  · right
    rw [field.Marshal_ne_nil_value k v hv, List.getLast?_append_of_ne_nil _ hv]

theorem line_ne_nil (f : field.Field) (hK : f.Key ≠ []) : field.Field.Marshal f ≠ [] := by
  intro h
  have := line_head? f hK
  rw [h] at this
  obtain ⟨a, t, hk⟩ := List.exists_cons_of_ne_nil hK
  rw [hk] at this
  simp at this

/-- The line separator does not occur in the serialization of a Field whose
Key and Value are free of it. -/
theorem line_no_crlf (f : field.Field) (hk : ¬ Separator <:+: f.Key)
    (hv : ¬ Separator <:+: f.Value) : ¬ Separator <:+: field.Field.Marshal f := by
  obtain ⟨k, v⟩ := f
  simp only at hk hv
  by_cases hv0 : v = []
  · subst hv0; rwa [field.Marshal_nil_value]
  · rw [field.Marshal_ne_nil_value k v hv0, fields_Separator_eq, field.field_Separator_eq,
      List.append_assoc]
    rw [fields_Separator_eq] at hk hv
    apply bytes.not_infix2_append 13 10 k _ hk
    · exact bytes.not_infix2_append 13 10 [58, 32] v (by decide) hv (Or.inl (by decide))
    · right; simp

end fields

/-- C2 (counterexample). The round trip fails on FieldSets that satisfy the
hypotheses of the claim (no "\r\n" inside, no leading or trailing ':', ' ',
'\r' or '\n' in any Key or Value): the empty FieldSet comes back with one
Field, a Key containing ": " is cut in two, and a Field with an empty Key and
Value "x" comes back with Key "x". -/
theorem fields.C2_counterexample :
    ((fields.Unmarshal (fields.Fields.Marshal [])).length = 1 ∧
        ([] : fields.Fields).length = 0) ∧
      ((∀ f ∈ [(⟨ascii "a: b", []⟩ : field.Field)],
          (¬ fields.Separator <:+: f.Key ∧ ¬ fields.Separator <:+: f.Value) ∧
          NoEdge (field.Separator ++ fields.Separator) f.Key ∧
          NoEdge (field.Separator ++ fields.Separator) f.Value) ∧
        fields.Unmarshal (fields.Fields.Marshal [⟨ascii "a: b", []⟩])
          = [⟨ascii "a", ascii "b"⟩]) ∧
      ((∀ f ∈ [(⟨[], ascii "x"⟩ : field.Field)],
          (¬ fields.Separator <:+: f.Key ∧ ¬ fields.Separator <:+: f.Value) ∧
          NoEdge (field.Separator ++ fields.Separator) f.Key ∧
          NoEdge (field.Separator ++ fields.Separator) f.Value) ∧
        fields.Unmarshal (fields.Fields.Marshal [⟨[], ascii "x"⟩])
          = [⟨ascii "x", []⟩]) := by
  decide

/-- C2 (amended). FieldSet round trip: for a non-empty FieldSet in which every
Key is non-empty and free of ": ", and in which no Key or Value contains
"\r\n" or starts or ends with ':', ' ', '\r' or '\n', parsing the
serialization gives back the same Fields (same length, same Key and Value at
every position, in the same order). -/
theorem fields.C2_roundtrip_amended (fs : fields.Fields) (hne : fs ≠ [])
    (hK : ∀ f ∈ fs, f.Key ≠ [] ∧ ¬ field.Separator <:+: f.Key)
    (hS : ∀ f ∈ fs, ¬ fields.Separator <:+: f.Key ∧ ¬ fields.Separator <:+: f.Value)
    (hE : ∀ f ∈ fs, NoEdge (field.Separator ++ fields.Separator) f.Key ∧
      NoEdge (field.Separator ++ fields.Separator) f.Value) :
    fields.Unmarshal (fields.Fields.Marshal fs) = fs := by
  have hlines_ne : fs.map field.Field.Marshal ≠ [] := by simpa using hne
  -- every line is non-empty and starts and ends outside the cutset "\r\n"
  have hline : ∀ l ∈ fs.map field.Field.Marshal,
      l ≠ [] ∧ NoEdge fields.Separator l ∧ ¬ fields.Separator <:+: l := by
    intro l hl
    obtain ⟨f, hf, rfl⟩ := List.mem_map.mp hl
    refine ⟨fields.line_ne_nil f (hK f hf).1, ?_, fields.line_no_crlf f (hS f hf).1 (hS f hf).2⟩
    intro c hc
    constructor
    · rw [fields.line_head? f (hK f hf).1]
      exact (NoEdge_of_append_right (hE f hf).1 c hc).1
    · rcases fields.line_getLast? f with h | h <;> rw [h]
      · exact (NoEdge_of_append_right (hE f hf).1 c hc).2
      · exact (NoEdge_of_append_right (hE f hf).2 c hc).2
  -- the joined text has no leading or trailing '\r' or '\n'
  have hedge : NoEdge fields.Separator (fields.Fields.Marshal fs) := by
    intro c hc
    unfold fields.Fields.Marshal
    constructor
    · obtain ⟨l, ls, hls⟩ := List.exists_cons_of_ne_nil hlines_ne
      rw [hls, bytes.Join_head? l ls _ (hline l (by simp [hls])).1]
      exact ((hline l (by simp [hls])).2.1 c hc).1
    · obtain ⟨l, hl, hlast⟩ := bytes.Join_getLast? fields.Separator _ hlines_ne
        (fun l hl => (hline l hl).1)
      rw [hlast]
      exact ((hline l hl).2.1 c hc).2
  have hsplit : bytes.Split (fields.Fields.Marshal fs) fields.Separator
      = fs.map field.Field.Marshal := by
    unfold fields.Fields.Marshal
    rw [fields.fields_Separator_eq]
    apply bytes.Split_Join 13 10 _ hlines_ne
    intro l hl
    have := hline l hl
    rw [fields.fields_Separator_eq] at this
    exact ⟨this.2.2, (this.2.1 13 (by decide)).2⟩
  rw [fields.Unmarshal_eq_map, bytes.Trim_eq_self hedge, hsplit, List.map_map]
  conv_rhs => rw [← List.map_id fs]
  apply List.map_congr_left
  intro f hf
  exact field.Unmarshal_Marshal f (hK f hf).1 (hK f hf).2
    (NoEdge_of_append_left (hE f hf).1) (NoEdge_of_append_left (hE f hf).2)

/-- Witness for C2 (amended) at the FieldSet `[("A","1"), ("B","")]`. -/
theorem fields.C2_roundtrip_amended_witness :
    fields.Unmarshal (fields.Fields.Marshal [⟨ascii "A", ascii "1"⟩, ⟨ascii "B", []⟩])
      = [⟨ascii "A", ascii "1"⟩, ⟨ascii "B", []⟩] :=
  fields.C2_roundtrip_amended [⟨ascii "A", ascii "1"⟩, ⟨ascii "B", []⟩] (by decide)
    (by decide) (by decide) (by decide)

/-! ## The read loop -/

namespace net

/-- More iterations change nothing once the goroutine is idle. -/
theorem read_of_idle (k : Nat) :
    ∀ (n : Nat) (st : ReadState), (read n st).idle → read (n + k) st = read n st
  | 0, st, h => by
    cases k with
    | zero => rfl
    | succ k =>
      simp only [read, Nat.zero_add] at h ⊢
      rcases h with h | h
      · simp [h]
      · simp [h]
  | n + 1, st, h => by
    have e : n + 1 + k = (n + k) + 1 := by omega
    rw [e]
    simp only [read] at h ⊢
    by_cases hr : st.conn.reading = true
    · simp only [hr, if_true] at h ⊢
      cases hi : readIteration st with
      | none => rfl
      | some r =>
        obtain ⟨st', cont⟩ := r
        cases cont with
        | true =>
          simp only [hi] at h ⊢
          exact read_of_idle k n st' h
        | false => rfl
    · simp [hr]

end net

/-- C3 (counterexample). With the separator left at its default "\r\n" and the
peer's bytes split after the seventh byte, the read loop calls the callback
three times, not once: for [("A","1")], for [("B","2")] and for [("","")]. -/
theorem net.C3_counterexample :
    ((net.read 10 (net.splitRead (net.Connect [] 0 none none).1 7)).conn.delivered.map
        message.Message.GetFields
      = [[⟨ascii "A", ascii "1"⟩], [⟨ascii "B", ascii "2"⟩], [⟨[], []⟩]]) ∧
    (net.read 10 (net.splitRead (net.Connect [] 0 none none).1 7)).conn.delivered.length ≠ 1 := by
  decide

/-- C3 (amended). Split-read scenario: the peer's bytes
"A: 1\r\nB: 2\r\n\r\n" arrive in two reads, split at any position `p`, with no
read error in between, on a connection returned by a successful Connect.  With
the default separator "\r\n" the read loop calls the callback three times, once
per line, with the fields [("A","1")], [("B","2")] and [("","")]; with the
separator set to "\r\n\r\n" it calls the callback exactly once, with the fields
[("A","1"),("B","2")].  Three iterations of the loop deliver all of it and
further iterations deliver nothing more. -/
theorem net.C3_split_read_amended (host : Bytes) (port : Int) (p fuel : Nat)
    (hp0 : 0 < p) (hp : p < 14) (hfuel : 3 ≤ fuel) :
    ((net.read fuel (net.splitRead (net.Connect host port none none).1 p)).conn.delivered.map
        message.Message.GetFields
      = [[⟨ascii "A", ascii "1"⟩], [⟨ascii "B", ascii "2"⟩], [⟨[], []⟩]]) ∧
    ((net.read fuel (net.splitRead
        ((net.Connect host port none none).1.SetMessageSeparator message.Separator)
        p)).conn.delivered.map message.Message.GetFields
      = [[⟨ascii "A", ascii "1"⟩, ⟨ascii "B", ascii "2"⟩]]) := by
  obtain ⟨k, rfl⟩ : ∃ k, fuel = 3 + k := ⟨fuel - 3, by omega⟩
  have hc : (net.Connect host port none none).1 = (net.Connect [] 0 none none).1 := rfl
  rw [hc]
  interval_cases p <;>
    (constructor <;> (rw [net.read_of_idle k 3 _ (by decide)]; decide))

/-- Witness for C3 (amended): the split after "A: 1\r\nB", eight iterations. -/
theorem net.C3_split_read_amended_witness :
    ((net.read 8 (net.splitRead (net.Connect (ascii "example.org") 5038 none none).1
        7)).conn.delivered.map message.Message.GetFields
      = [[⟨ascii "A", ascii "1"⟩], [⟨ascii "B", ascii "2"⟩], [⟨[], []⟩]]) ∧
    ((net.read 8 (net.splitRead
        ((net.Connect (ascii "example.org") 5038 none none).1.SetMessageSeparator
          message.Separator) 7)).conn.delivered.map message.Message.GetFields
      = [[⟨ascii "A", ascii "1"⟩, ⟨ascii "B", ascii "2"⟩]]) :=
  net.C3_split_read_amended (ascii "example.org") 5038 7 8 (by decide) (by decide) (by decide)

/-! ## Shutdown counters and guarded writes -/

namespace net

theorem wrapInt32_add (x y : Int) : wrapInt32 (wrapInt32 x + y) = wrapInt32 (x + y) := by
  unfold wrapInt32; omega

theorem wrapInt32_of_range (x : Int) (h1 : -2147483648 ≤ x) (h2 : x < 2147483648) :
    wrapInt32 x = x := by
  unfold wrapInt32; omega

/-- A guarded write on a connection whose `closing` or `closed` counter is
positive: the closed-connection error, and the connection is left as it was
but for the released write lock. -/
theorem writeBytes_of_closed (c : Connection) (cmd : Bytes) (out : WriteOutcome)
    (h : 0 < c.closing ∨ 0 < c.closed) :
    c.writeBytes cmd out = ({ c with writeMux := false }, some "connection closed") := by
  have h' : c.closing > 0 ∨ c.closed > 0 := h
  simp [Connection.writeBytes, h']

/-- A run of `n` `Close` steps adds `n` to the `closing` counter, modulo 2^32. -/
theorem run_replicate_close (n : Nat) (c : Connection) (h : wrapInt32 c.closing = c.closing) :
    c.run (List.replicate n Op.close) = { c with closing := wrapInt32 (c.closing + n) } := by
  induction n generalizing c with
  | zero => simp [Connection.run, h]
  | succ n ih =>
    have hc : wrapInt32 (c.Close).closing = (c.Close).closing := by
      simp only [Connection.Close, atomicAddInt32]
      unfold wrapInt32; omega
    have := ih c.Close hc
    simp only [Connection.run] at this
    simp only [Connection.run, List.replicate_succ, List.foldl_cons, Connection.step, this]
    simp only [Connection.Close, atomicAddInt32, wrapInt32_add]
    congr 1
    push_cast
    ring_nf

/-- Steps never change a positive `closed` counter once the read goroutine has finished. -/
theorem run_closed_of_finished (ops : List Op) :
    ∀ c : Connection, 0 < c.closed → c.reading = false →
      0 < (c.run ops).closed ∧ (c.run ops).reading = false := by
  induction ops with
  | nil => intro c h1 h2; exact ⟨h1, h2⟩
  | cons op ops ih =>
    intro c h1 h2
    have hstep : 0 < (c.step op).closed ∧ (c.step op).reading = false := by
      cases op with
      | close => exact ⟨h1, h2⟩
      | write msg out =>
        simp only [Connection.step, Connection.Write]
        rw [writeBytes_of_closed c _ out (Or.inr h1)]
        exact ⟨h1, h2⟩
      | teardown => simp [Connection.step, h2, h1]
    exact ih (c.step op) hstep.1 hstep.2

/-- Steps keep the `closing` counter positive as long as it cannot wrap. -/
theorem run_closing_pos (ops : List Op) :
    ∀ c : Connection, 0 < c.closing →
      c.closing + closeCount ops + (if c.reading then 1 else 0) < 2147483648 →
      0 < (c.run ops).closing := by
  induction ops with
  | nil => intro c h1 _; exact h1
  | cons op ops ih =>
    intro c h1 h2
    cases op with
    | close =>
      have hcount : closeCount (Op.close :: ops) = closeCount ops + 1 := by
        simp [closeCount]
      rw [hcount] at h2
      push_cast at h2
      have hr : (c.step Op.close).reading = c.reading := rfl
      have hv : (c.step Op.close).closing = c.closing + 1 := by
        simp only [Connection.step, Connection.Close, atomicAddInt32]
        apply wrapInt32_of_range
        · omega
        · split at h2 <;> omega
      apply ih (c.step Op.close)
      · rw [hv]; omega
      · rw [hv, hr]; omega
    | write msg out =>
      have hcount : closeCount (Op.write msg out :: ops) = closeCount ops := by
        simp [closeCount]
      rw [hcount] at h2
      have hs : c.step (Op.write msg out) = { c with writeMux := false } := by
        simp only [Connection.step, Connection.Write]
        rw [writeBytes_of_closed c _ out (Or.inl h1)]
      apply ih (c.step (Op.write msg out))
      · rw [hs]; exact h1
      · rw [hs]; exact h2
    | teardown =>
      have hcount : closeCount (Op.teardown :: ops) = closeCount ops := by
        simp [closeCount]
      rw [hcount] at h2
      by_cases hr : c.reading = true
      · have hv : (c.step Op.teardown).closing = c.closing + 1 := by
          simp only [Connection.step, hr, if_true, Connection.teardown, atomicAddInt32]
          apply wrapInt32_of_range
          · omega
          · simp only [hr, if_true] at h2; omega
        have hr' : (c.step Op.teardown).reading = false := by
          simp [Connection.step, hr, Connection.teardown]
        apply ih (c.step Op.teardown)
        · rw [hv]; omega
        · rw [hv, hr']; simp only [hr, if_true] at h2; simp; omega
      · have hs : c.step Op.teardown = c := by simp [Connection.step, hr]
        apply ih (c.step Op.teardown)
        · rw [hs]; exact h1
        · rw [hs]; exact h2

end net

namespace net

/-- On every connection reached from `Connect` by Close, Write and teardown
steps, the barrier counts the read goroutine alone and `closed` is 0 exactly
while that goroutine runs. -/
theorem run_from_Connect (host : Bytes) (port : Int) (resolve dial : error) (ops : List Op) :
    ((Connect host port resolve dial).1.run ops).waitClose
        = (if ((Connect host port resolve dial).1.run ops).reading then 1 else 0) ∧
      ((Connect host port resolve dial).1.run ops).closed
        = (if ((Connect host port resolve dial).1.run ops).reading then 0 else 1) := by
  have hinit : (Connect host port resolve dial).1.waitClose
        = (if (Connect host port resolve dial).1.reading then 1 else 0) ∧
      (Connect host port resolve dial).1.closed
        = (if (Connect host port resolve dial).1.reading then 0 else 1) := by
    cases resolve <;> cases dial <;> simp [Connect]
  generalize (Connect host port resolve dial).1 = c at hinit
  induction ops generalizing c with
  | nil => exact hinit
  | cons op ops ih =>
    apply ih (c.step op)
    obtain ⟨h1, h2⟩ := hinit
    cases op with
    | close => exact ⟨h1, h2⟩
    | write msg out =>
      simp only [Connection.step, Connection.Write, Connection.writeBytes]
      split <;> (try split) <;> (try split) <;> (try split) <;>
        simp_all
    | teardown =>
      by_cases hr : c.reading = true
      · simp only [hr, if_true] at h1 h2
        simp [Connection.step, hr, Connection.teardown, h1, h2, atomicAddInt32, wrapInt32]
      · simp only [Connection.step, hr, if_false]
        exact ⟨h1, h2⟩

/-- Once `Close()` can return (the barrier is at zero) on a connection reached
from `Connect`, the teardown has completed: `closed` is positive and the read
goroutine has finished. -/
theorem closed_of_CloseReturns (host : Bytes) (port : Int) (resolve dial : error)
    (ops : List Op) (h : ((Connect host port resolve dial).1.run ops).CloseReturns) :
    0 < ((Connect host port resolve dial).1.run ops).closed ∧
      ((Connect host port resolve dial).1.run ops).reading = false := by
  obtain ⟨h1, h2⟩ := run_from_Connect host port resolve dial ops
  unfold Connection.CloseReturns at h
  rw [h1] at h
  by_cases hr : ((Connect host port resolve dial).1.run ops).reading = true
  · simp [hr] at h
  · simp only [hr, if_false] at h2
    rw [h2]
    exact ⟨by decide, by simpa using hr⟩

end net

/-- C4 (counterexample). After a successful Connect and `2^31 - 1` calls of
`Close` the closing counter is `2^31 - 1 > 0`; one more `Close` step wraps the
`int32` counter to `-2^31`, and a `Write` in that state passes the guard
(closing and closed are both not positive), returns no error and hands the
serialized message to the socket. -/
theorem net.C4_counterexample :
    0 < net.manyCloses.closing ∧
    (net.manyCloses.run [net.Op.close]).closing = -2147483648 ∧
    (net.manyCloses.run [net.Op.close]).closed = 0 ∧
    ((net.manyCloses.run [net.Op.close]).Write (message.New []) net.WriteOutcome.ok).2
      = none ∧
    ((net.manyCloses.run [net.Op.close]).Write (message.New []) net.WriteOutcome.ok).1.tcp
      = some { written := [ascii "\r\n\r\n"], isClosed := false } := by
  have h : net.manyCloses
      = { (net.Connect [] 0 none none).1 with closing := 2147483647 } := by
    unfold net.manyCloses
    rw [net.run_replicate_close _ _ (by decide)]
    rfl
  rw [h]
  decide

/-- C4 (amended). Write after Close: from a state whose closing counter is
positive, after any further sequence of Close, Write and teardown steps that
cannot wrap the `int32` closing counter (closing + number of Close steps + 1
stays below `2^31`), and from a state in which the teardown has completed
(closed counter positive, read goroutine finished), after any further sequence
of steps at all, `Write(msg)` returns the "connection closed" error for every
message and leaves the socket untouched. -/
theorem net.C4_write_after_close_amended (c : net.Connection) (ops : List net.Op)
    (msg : message.Message) (out : net.WriteOutcome)
    (h : (0 < c.closing ∧ c.closing + net.closeCount ops + 1 < 2147483648) ∨
      (0 < c.closed ∧ c.reading = false)) :
    ((c.run ops).Write msg out).2 = some "connection closed" ∧
      ((c.run ops).Write msg out).1.tcp = (c.run ops).tcp := by
  have hguard : 0 < (c.run ops).closing ∨ 0 < (c.run ops).closed := by
    rcases h with ⟨h1, h2⟩ | ⟨h1, h2⟩
    · left
      apply net.run_closing_pos ops c h1
      split <;> omega
    · right
      exact (net.run_closed_of_finished ops c h1 h2).1
  unfold net.Connection.Write
  rw [net.writeBytes_of_closed _ _ out hguard]
  exact ⟨rfl, rfl⟩

/-- Witness for C4 (amended): a successful Connect, then Close, a Write, the
teardown and a second Close; a later Write fails and the socket holds nothing. -/
theorem net.C4_write_after_close_amended_witness :
    ((((net.Connect [] 0 none none).1.Close).run
        [net.Op.write (message.New [⟨ascii "A", ascii "1"⟩]) net.WriteOutcome.ok,
          net.Op.teardown, net.Op.close]).Write
        (message.New [⟨ascii "B", ascii "2"⟩]) net.WriteOutcome.ok).2
      = some "connection closed" ∧
    ((((net.Connect [] 0 none none).1.Close).run
        [net.Op.write (message.New [⟨ascii "A", ascii "1"⟩]) net.WriteOutcome.ok,
          net.Op.teardown, net.Op.close]).Write
        (message.New [⟨ascii "B", ascii "2"⟩]) net.WriteOutcome.ok).1.tcp
      = (((net.Connect [] 0 none none).1.Close).run
        [net.Op.write (message.New [⟨ascii "A", ascii "1"⟩]) net.WriteOutcome.ok,
          net.Op.teardown, net.Op.close]).tcp :=
  net.C4_write_after_close_amended ((net.Connect [] 0 none none).1.Close)
    [net.Op.write (message.New [⟨ascii "A", ascii "1"⟩]) net.WriteOutcome.ok,
      net.Op.teardown, net.Op.close]
    (message.New [⟨ascii "B", ascii "2"⟩]) net.WriteOutcome.ok (Or.inl (by decide))

/-- C6. Failed Connect: when Connect returns a non-nil error (the host does
not resolve, or the dial fails), the Connection it returns is not open: its
closed counter is positive, no read loop was started, the completion barrier
counts zero and there is no socket; every Write on it returns the "connection
closed" error and leaves the socket absent. -/
theorem net.C6_failed_connect (host : Bytes) (port : Int) (resolve dial : error)
    (h : (net.Connect host port resolve dial).2 ≠ none) :
    0 < (net.Connect host port resolve dial).1.closed ∧
    (net.Connect host port resolve dial).1.reading = false ∧
    (net.Connect host port resolve dial).1.waitClose = 0 ∧
    (net.Connect host port resolve dial).1.tcp = none ∧
    ∀ (msg : message.Message) (out : net.WriteOutcome),
      ((net.Connect host port resolve dial).1.Write msg out).2 = some "connection closed" ∧
      ((net.Connect host port resolve dial).1.Write msg out).1.tcp = none := by
  have hconn : (net.Connect host port resolve dial).1 =
      { messageSeparator := ascii "\r\n", readBuffer := [], tcp := none, writeMux := false,
        closing := 0, closed := 1, waitClose := 0, delivered := [], reading := false } := by
    cases resolve with
    | some e => rfl
    | none =>
      cases dial with
      | some e => rfl
      | none => exact absurd rfl h
  rw [hconn]
  refine ⟨by decide, rfl, rfl, rfl, ?_⟩
  intro msg out
  unfold net.Connection.Write
  rw [net.writeBytes_of_closed _ _ out (Or.inr (by decide))]
  exact ⟨rfl, rfl⟩

/-- Witness for C6: the dial fails with "connection refused". -/
theorem net.C6_failed_connect_witness :
    0 < (net.Connect (ascii "localhost") 1 none (some "connection refused")).1.closed ∧
    (net.Connect (ascii "localhost") 1 none (some "connection refused")).1.reading = false ∧
    (net.Connect (ascii "localhost") 1 none (some "connection refused")).1.waitClose = 0 ∧
    (net.Connect (ascii "localhost") 1 none (some "connection refused")).1.tcp = none ∧
    ∀ (msg : message.Message) (out : net.WriteOutcome),
      ((net.Connect (ascii "localhost") 1 none (some "connection refused")).1.Write
          msg out).2 = some "connection closed" ∧
      ((net.Connect (ascii "localhost") 1 none (some "connection refused")).1.Write
          msg out).1.tcp = none :=
  net.C6_failed_connect (ascii "localhost") 1 none (some "connection refused") (by decide)

/-! ## Lookup and serialization -/

namespace fields

theorem Find_eq_find? (fs : Fields) (k : Bytes) :
    Fields.Find fs k =
      match fs.find? (fun f => decide (f.Key = k)) with
      | some f => (f.Value, none)
      | none => ([], some "field not found") := by
  induction fs with
  | nil => rfl
  | cons f fs ih =>
    by_cases h : f.Key = k
    · simp [Fields.Find, List.find?, h]
    · simp [Fields.Find, List.find?, h, ih]

theorem Find_first (pre : Fields) (f : field.Field) (post : Fields) (k : Bytes)
    (hpre : ∀ g ∈ pre, g.Key ≠ k) (hf : f.Key = k) :
    Fields.Find (pre ++ f :: post) k = (f.Value, none) := by
  induction pre with
  | nil => simp [Fields.Find, hf]
  | cons g pre ih =>
    have hg : g.Key ≠ k := hpre g (by simp)
    simp only [List.cons_append, Fields.Find, hg, if_false]
    exact ih (fun x hx => hpre x (List.mem_cons_of_mem _ hx))

theorem Find_none_iff (fs : Fields) (k : Bytes) :
    (Fields.Find fs k).2 = some "field not found" ↔ ∀ f ∈ fs, f.Key ≠ k := by
  induction fs with
  | nil => simp [Fields.Find]
  | cons f fs ih =>
    by_cases h : f.Key = k
    · simp [Fields.Find, h]
    · simp [Fields.Find, h, ih]

theorem Find_absent (fs : Fields) (k : Bytes) (h : ∀ f ∈ fs, f.Key ≠ k) :
    Fields.Find fs k = ([], some "field not found") := by
  induction fs with
  | nil => rfl
  | cons f fs ih =>
    have hf : f.Key ≠ k := h f (by simp)
    simp only [Fields.Find, hf, if_false]
    exact ih (fun x hx => h x (List.mem_cons_of_mem _ hx))

end fields

/-- C7. Find: `fs.Find(k)` returns the Value of the first Field, in insertion
order, whose Key equals `k`, with no error; it returns the "field not found"
error (with the empty string) exactly when no Field of `fs` has Key `k`.  Find
on the empty FieldSet is not-found for every key, and a present key with an
empty Value is found: empty string, no error. -/
theorem fields.C7_Find (fs : fields.Fields) (k : Bytes) :
    (fields.Fields.Find fs k =
      match fs.find? (fun f => decide (f.Key = k)) with
      | some f => (f.Value, none)
      | none => ([], some "field not found")) ∧
    (∀ (pre : fields.Fields) (f : field.Field) (post : fields.Fields),
      fs = pre ++ f :: post → (∀ g ∈ pre, g.Key ≠ k) → f.Key = k →
        fields.Fields.Find fs k = (f.Value, none)) ∧
    ((fields.Fields.Find fs k).2 = some "field not found" ↔ ∀ f ∈ fs, f.Key ≠ k) ∧
    ((∀ f ∈ fs, f.Key ≠ k) → fields.Fields.Find fs k = ([], some "field not found")) ∧
    fields.Fields.Find [] k = ([], some "field not found") ∧
    (∀ (pre post : fields.Fields), (∀ g ∈ pre, g.Key ≠ k) →
      fields.Fields.Find (pre ++ ⟨k, []⟩ :: post) k = ([], none)) := by
  refine ⟨fields.Find_eq_find? fs k, ?_, fields.Find_none_iff fs k, fields.Find_absent fs k,
    rfl, ?_⟩
  · intro pre f post hfs hpre hf
    rw [hfs]
    exact fields.Find_first pre f post k hpre hf
  · intro pre post hpre
    exact fields.Find_first pre ⟨k, []⟩ post k hpre rfl

/-- C8. Message serialization: `m.Marshal()` is `m.GetFields().Marshal()`
followed by the four bytes "\r\n\r\n"; for a Message with an empty FieldSet it
is exactly "\r\n\r\n". -/
theorem message.C8_Marshal (m : message.Message) :
    m.Marshal = fields.Fields.Marshal m.GetFields ++ [13, 10, 13, 10] ∧
    (m.GetFields = [] → m.Marshal = [13, 10, 13, 10]) ∧
    (message.New []).Marshal = ascii "\r\n\r\n" := by
  refine ⟨rfl, ?_, by decide⟩
  intro h
  have h' : m.fields = [] := h
  simp only [message.Message.Marshal, h']
  rfl

/-- C10. Field serialization: `f.Marshal()` and `f.String()` are exactly Key
when Value is empty, and Key followed by ": " followed by Value when Value is
non-empty; `Field{Key: "A", Value: ""}` serializes to "A". -/
theorem field.C10_Marshal (f : field.Field) :
    f.Marshal = f.String ∧
    (f.Value = [] → f.String = f.Key) ∧
    (f.Value ≠ [] → f.String = f.Key ++ [58, 32] ++ f.Value) ∧
    field.Field.Marshal ⟨ascii "A", []⟩ = ascii "A" := by
  obtain ⟨k, v⟩ := f
  refine ⟨rfl, ?_, ?_, by decide⟩
  · intro h
    simp only at h
    subst h
    exact field.Marshal_nil_value k
  · intro h
    exact field.Marshal_ne_nil_value k v h

namespace bytes

/-- A joined list of lines whose last line is non-empty ends in the last byte
of that line. -/
theorem Join_getLast?_of_last (sep l : Bytes) (hl : l ≠ []) :
    ∀ (init : List Bytes), (Join (init ++ [l]) sep).getLast? = l.getLast?
  | [] => by rw [List.nil_append, Join_singleton]
  | [x] => by
    rw [List.singleton_append, Join_cons_cons, Join_singleton,
      List.getLast?_append_of_ne_nil _ hl]
  | x :: y :: init => by
    have ih := Join_getLast?_of_last sep l hl (y :: init)
    rw [List.cons_append] at ih
    have hne : Join (y :: (init ++ [l])) sep ≠ [] := by
      intro h0
      rw [h0] at ih
      obtain ⟨a, t, rfl⟩ := List.exists_cons_of_ne_nil hl
      rw [List.getLast?_eq_getLast _ (List.cons_ne_nil a t)] at ih
      simp at ih
    rw [List.cons_append, List.cons_append, Join_cons_cons,
      List.getLast?_append_of_ne_nil _ hne]
    exact ih

end bytes

namespace message

theorem message_Separator_eq : Separator = [13, 10, 13, 10] := by decide

/-- A byte string that does not end in '\n' does not end in "\r\n\r\n". -/
theorem not_suffix_of_getLast? (s : Bytes) (h : s.getLast? ≠ some 10) :
    ¬ Separator <:+ s := by
  rintro ⟨t, rfl⟩
  apply h
  rw [message_Separator_eq, List.getLast?_append_of_ne_nil _ (by simp)]
  rfl

theorem Marshal_rdrop (m : Message) :
    m.Marshal.rdrop Separator.length = fields.Fields.Marshal m.GetFields := by
  simp only [Message.Marshal, Message.GetFields]
  exact List.rdrop_append_length

end message

/-- C9 (counterexample). The bytes of `m.Marshal()` before the final
"\r\n\r\n" can themselves end with "\r\n\r\n": for the Message with the single
Field ("Body", "text\r\n\r\n"), and for the Message with the Fields ("A", ""),
("", ""), ("", ""). -/
theorem message.C9_counterexample :
    ((message.New [field.New (ascii "Body") (ascii "text\r\n\r\n")]).Marshal
        = ascii "Body: text\r\n\r\n\r\n\r\n" ∧
      message.Separator <:+
        (message.New [field.New (ascii "Body") (ascii "text\r\n\r\n")]).Marshal.rdrop
          message.Separator.length) ∧
    ((message.New [field.New (ascii "A") [], field.New [] [], field.New [] []]).Marshal
        = ascii "A\r\n\r\n\r\n\r\n" ∧
      message.Separator <:+
        (message.New [field.New (ascii "A") [], field.New [] [], field.New [] []]).Marshal.rdrop
          message.Separator.length) := by
  decide

namespace bytes

theorem Join_append_singleton (sep l : Bytes) :
    ∀ (xs : List Bytes), xs ≠ [] → Join (xs ++ [l]) sep = Join xs sep ++ sep ++ l
  | [], h => absurd rfl h
  | [x], _ => by rw [List.singleton_append, Join_cons_cons, Join_singleton, Join_singleton]
  | x :: y :: xs, _ => by
    have ih := Join_append_singleton sep l (y :: xs) (by simp)
    rw [List.cons_append, List.cons_append, Join_cons_cons, ← List.cons_append, ih,
      Join_cons_cons]
    simp

/-- Where "\n\r\n\r" (the reversed "\r\n\r\n") can begin `r ++ "\n\r" ++ y`. -/
theorem prefix4_append (r y : Bytes) :
    [10, 13, 10, 13] <+: r ++ 10 :: 13 :: y ↔
      [10, 13, 10, 13] <+: r ∨ r = [10, 13] ∨ (r = [] ∧ [10, 13] <+: y) := by
  rcases r with _ | ⟨a, _ | ⟨b, _ | ⟨c, _ | ⟨d, r⟩⟩⟩⟩ <;>
    simp [List.cons_prefix_cons] <;> omega

/-- Where "\n\r" (the reversed "\r\n") can begin `r ++ "\n\r" ++ y`. -/
theorem prefix2_append (r y : Bytes) :
    [10, 13] <+: r ++ 10 :: 13 :: y ↔ [10, 13] <+: r ∨ r = [] := by
  rcases r with _ | ⟨a, _ | ⟨b, r⟩⟩ <;> simp [List.cons_prefix_cons]

/-- `x ++ "\r\n" ++ f` ends with "\r\n\r\n" exactly when `f` does, or `f` is
"\r\n", or `f` is empty and `x` ends with "\r\n". -/
theorem suffix4_append (x f : Bytes) :
    [13, 10, 13, 10] <:+ x ++ [13, 10] ++ f ↔
      [13, 10, 13, 10] <:+ f ∨ f = [13, 10] ∨ (f = [] ∧ [13, 10] <:+ x) := by
  have h := prefix4_append f.reverse x.reverse
  have e1 : ([13, 10, 13, 10] : Bytes) = [10, 13, 10, 13].reverse := rfl
  have e2 : ([13, 10] : Bytes) = [10, 13].reverse := rfl
  have e3 : x ++ [13, 10] ++ f = (f.reverse ++ 10 :: 13 :: x.reverse).reverse := by simp
  rw [e3, e1, List.reverse_suffix, h, ← List.reverse_suffix, ← e1]
  simp only [List.reverse_reverse, List.reverse_eq_nil_iff]
  rw [show f.reverse = [10, 13] ↔ f = [13, 10] from by
    rw [List.reverse_eq_iff]; rfl]
  rw [show ([10, 13] <+: x.reverse) ↔ ([13, 10] <:+ x) from by
    rw [e2, ← List.reverse_suffix]; simp]

/-- `x ++ "\r\n" ++ g` ends with "\r\n" exactly when `g` does or `g` is empty. -/
theorem suffix2_append (x g : Bytes) :
    [13, 10] <:+ x ++ [13, 10] ++ g ↔ [13, 10] <:+ g ∨ g = [] := by
  have h := prefix2_append g.reverse x.reverse
  have e2 : ([13, 10] : Bytes) = [10, 13].reverse := rfl
  have e3 : x ++ [13, 10] ++ g = (g.reverse ++ 10 :: 13 :: x.reverse).reverse := by simp
  rw [e3, e2, List.reverse_suffix, h, ← List.reverse_suffix, ← e2]
  simp only [List.reverse_reverse, List.reverse_eq_nil_iff]

end bytes

/-- C9 (amended). For every Message `m`, `m.Marshal()` has "\r\n\r\n" as a
suffix, and the bytes before that suffix are the serialization of the FieldSet.
Those bytes end with "\r\n\r\n" in these cases and in no other: the last Field's
serialization ends with "\r\n\r\n"; or there are at least two Fields and the
last serialization is "\r\n"; or the last serialization is empty and the one
before it ends with "\r\n"; or there are at least three Fields and the last two
serializations are empty.  In particular they never do for the empty FieldSet. -/
theorem message.C9_one_separator_amended (m : message.Message) :
    message.Separator <:+ m.Marshal ∧
    m.Marshal.rdrop message.Separator.length = fields.Fields.Marshal m.GetFields ∧
    (m.GetFields = [] →
      ¬ message.Separator <:+ m.Marshal.rdrop message.Separator.length) ∧
    (∀ f : field.Field, m.GetFields = [f] →
      (message.Separator <:+ m.Marshal.rdrop message.Separator.length ↔
        message.Separator <:+ f.Marshal)) ∧
    (∀ (init : fields.Fields) (g f : field.Field), m.GetFields = init ++ [g, f] →
      (message.Separator <:+ m.Marshal.rdrop message.Separator.length ↔
        (message.Separator <:+ f.Marshal ∨ f.Marshal = fields.Separator ∨
          (f.Marshal = [] ∧
            (fields.Separator <:+ g.Marshal ∨ (g.Marshal = [] ∧ init ≠ [])))))) := by
  refine ⟨⟨fields.Fields.Marshal m.fields, rfl⟩, message.Marshal_rdrop m, ?_, ?_, ?_⟩
  · intro h
    rw [message.Marshal_rdrop, h]
    decide
  · intro f h
    rw [message.Marshal_rdrop, h]
    simp only [fields.Fields.Marshal, List.map_cons, List.map_nil, bytes.Join_singleton]
  · intro init g f h
    rw [message.Marshal_rdrop, h, message.message_Separator_eq, fields.fields_Separator_eq]
    have e : init ++ [g, f] = (init ++ [g]) ++ [f] := by simp
    simp only [fields.Fields.Marshal]
    rw [e, List.map_append, List.map_singleton,
      bytes.Join_append_singleton _ _ _ (by simp), fields.fields_Separator_eq,
      bytes.suffix4_append]
    rcases init with _ | ⟨a, init⟩
    · simp [bytes.Join_singleton]
    · have e2 : List.map field.Field.Marshal (a :: init ++ [g])
          = List.map field.Field.Marshal (a :: init) ++ [g.Marshal] := by simp
      rw [e2, bytes.Join_append_singleton _ _ _ (by simp), bytes.suffix2_append]
      simp

/-- Messages for which the bytes before the final "\r\n\r\n" do not end with
"\r\n\r\n": the last Field has an empty Key, or a Value that ends in "\n" or in
"\r\n", or is one empty Field after another Field. -/
theorem message.one_separator_examples :
    ∀ fs ∈ [[field.New [] []], [field.New [] (ascii "x")],
        [field.New (ascii "A") (ascii "x\n")], [field.New (ascii "A") (ascii "x\r\n")],
        [field.New (ascii "A") [], field.New [] []]],
      message.Separator <:+ (message.New fs).Marshal ∧
        ¬ message.Separator <:+ (message.New fs).Marshal.rdrop message.Separator.length := by
  decide

/-! ## Concurrent executions: the invariant -/

namespace net

theorem WPc.holds_of_token {pc : WPc} (h : pc.token = true) : pc.holds = true := by
  cases pc <;> simp_all [WPc.token, WPc.holds]

end net

set_option maxRecDepth 100000 in
/-- The first 13 rounds of the schedule of the C5 witness: call 0 of `Write`
takes the lock first, `Close()` signals the shutdown before call 0 reads
`closing`, so both calls fail at the guard; the teardown gets the lock after
them, and its `Done` releases `Close()`, which sleeps in `Wait`. -/
theorem net.exec_example :
    (net.Sys.init.exec (net.roundRobin 13).flatten).log
      = [net.Event.unlock 0 (some "connection closed"),
          net.Event.writeReturn 0 (some "connection closed"),
          net.Event.unlock 1 (some "connection closed"),
          net.Event.writeReturn 1 (some "connection closed"),
          net.Event.sockClose, net.Event.closeReturn] ∧
    (net.Sys.init.exec (net.roundRobin 12).flatten).c = net.CPc.woken ∧
    (net.Sys.init.exec (net.roundRobin 13).flatten).c = net.CPc.returned := by
  decide


/-! ## Parsing: trimming and cutting -/

namespace bytes

theorem TrimLeft_append_of_mem (cutset pre t : Bytes) (hpre : ∀ c ∈ pre, c ∈ cutset) :
    TrimLeft (pre ++ t) cutset = TrimLeft t cutset := by
  unfold TrimLeft
  exact List.dropWhile_append_of_pos (fun a ha => (inCutset_iff cutset a).mpr (hpre a ha))

theorem TrimRight_append_of_mem (cutset t post : Bytes) (hpost : ∀ c ∈ post, c ∈ cutset) :
    TrimRight (t ++ post) cutset = TrimRight t cutset := by
  unfold TrimRight List.rdropWhile
  rw [List.reverse_append]
  rw [List.dropWhile_append_of_pos]
  intro a ha
  exact (inCutset_iff cutset a).mpr (hpost a (List.mem_reverse.mp ha))

theorem TrimRight_of_all_mem (cutset s : Bytes) (h : ∀ c ∈ s, c ∈ cutset) :
    TrimRight s cutset = [] := by
  unfold TrimRight
  rw [List.rdropWhile_eq_nil_iff]
  exact fun a ha => (inCutset_iff cutset a).mpr (h a ha)

/-- `Trim` removes exactly the leading and trailing bytes of the cutset. -/
theorem Trim_of_IsTrimmed {cutset line t : Bytes} (h : IsTrimmed cutset line t) :
    Trim line cutset = t := by
  obtain ⟨pre, post, rfl, hpre, hpost, ht⟩ := h
  unfold Trim
  rw [TrimRight_append_of_mem cutset (pre ++ t) post hpost]
  by_cases h0 : t = []
  · subst h0
    rw [List.append_nil, TrimRight_of_all_mem cutset pre hpre]
    rfl
  · have hr : TrimRight (pre ++ t) cutset = pre ++ t := by
      unfold TrimRight
      rw [List.rdropWhile_eq_self_iff]
      intro hl hp
      rw [inCutset_iff] at hp
      apply (ht _ hp).2
      rw [← List.getLast?_eq_getLast _ hl, List.getLast?_append_of_ne_nil _ h0]
    rw [hr, TrimLeft_append_of_mem cutset pre t hpre]
    have := Trim_eq_self ht
    unfold Trim at this
    have hr2 : TrimRight t cutset = t := by
      unfold TrimRight
      rw [List.rdropWhile_eq_self_iff]
      intro hl hp
      rw [inCutset_iff] at hp
      exact (ht _ hp).2 (List.getLast?_eq_getLast _ hl)
    rwa [hr2] at this

/-- The result of `Trim` is the input with leading and trailing cutset bytes
removed, in the sense of `IsTrimmed`. -/
theorem IsTrimmed_Trim (cutset line : Bytes) : IsTrimmed cutset line (Trim line cutset) := by
  refine ⟨(TrimRight line cutset).takeWhile (inCutset cutset),
    line.rtakeWhile (inCutset cutset), ?_, ?_, ?_, ?_⟩
  · unfold Trim TrimLeft
    rw [List.takeWhile_append_dropWhile]
    unfold TrimRight List.rdropWhile List.rtakeWhile
    rw [← List.reverse_append, List.takeWhile_append_dropWhile, List.reverse_reverse]
  · intro c hc
    exact (inCutset_iff cutset c).mp (List.mem_takeWhile_imp hc)
  · intro c hc
    exact (inCutset_iff cutset c).mp (List.mem_rtakeWhile_imp hc)
  · intro c hc
    have hcp : inCutset cutset c = true := (inCutset_iff cutset c).mpr hc
    constructor
    · intro hh
      have := List.head?_dropWhile_not (inCutset cutset) (TrimRight line cutset)
      unfold Trim TrimLeft at hh
      rw [hh] at this
      simp [hcp] at this
    · intro hl
      unfold Trim TrimLeft at hl
      have hne : List.dropWhile (inCutset cutset) (TrimRight line cutset) ≠ [] := by
        intro h0; rw [h0] at hl; cases hl
      obtain ⟨u, hu⟩ := List.dropWhile_suffix (l := TrimRight line cutset) (inCutset cutset)
      have hne2 : TrimRight line cutset ≠ [] := by
        intro h0; rw [h0] at hne; exact hne rfl
      have hlast : (TrimRight line cutset).getLast? = some c := by
        rw [← hu, List.getLast?_append_of_ne_nil _ hne]; exact hl
      have hne3 : List.rdropWhile (inCutset cutset) line ≠ [] := hne2
      have hnot := List.rdropWhile_last_not (inCutset cutset) line hne3
      have hlast' : (List.rdropWhile (inCutset cutset) line).getLast? = some c := hlast
      rw [List.getLast?_eq_getLast _ hne3] at hlast'
      injection hlast' with hlast'
      rw [hlast'] at hnot
      exact hnot hcp

theorem IsTrimmed_iff (cutset line t : Bytes) : IsTrimmed cutset line t ↔ t = Trim line cutset :=
  ⟨fun h => (Trim_of_IsTrimmed h).symm, fun h => h ▸ IsTrimmed_Trim cutset line⟩

end bytes

namespace bytes

theorem Index_isSome_of_append (sep : Bytes) :
    ∀ (a b : Bytes), ∃ m, Index (a ++ sep ++ b) sep = some m
  | [], b => by
    refine ⟨0, ?_⟩
    unfold Index
    have : sep.isPrefixOf ([] ++ sep ++ b) = true := by
      rw [List.isPrefixOf_iff_prefix]; simp
    rw [if_pos this]
  | c :: a, b => by
    obtain ⟨m, hm⟩ := Index_isSome_of_append sep a b
    unfold Index
    by_cases hp : sep.isPrefixOf (c :: a ++ sep ++ b) = true
    · exact ⟨0, by rw [if_pos hp]⟩
    · refine ⟨m + 1, ?_⟩
      rw [if_neg hp]
      simp only [List.cons_append, List.append_assoc] at hm ⊢
      simp [hm]

/-- A separator that occurs in `s` is found by `Index`. -/
theorem Index_isSome_of_infix {s sep : Bytes} (h : sep <:+: s) : ∃ m, Index s sep = some m := by
  obtain ⟨a, b, rfl⟩ := h
  exact Index_isSome_of_append sep a b

/-- The position found by `Index` is that of the first occurrence. -/
theorem Index_of_FirstCut (sep : Bytes) :
    ∀ (k s v : Bytes), FirstCut sep s k v → Index s sep = some k.length
  | [], s, v, h => by
    obtain ⟨rfl, _⟩ := h
    unfold Index
    have : sep.isPrefixOf ([] ++ sep ++ v) = true := by
      rw [List.isPrefixOf_iff_prefix]; simp
    rw [if_pos this]; rfl
  | c :: k, s, v, h => by
    obtain ⟨rfl, hmin⟩ := h
    have hp : ¬ sep.isPrefixOf (c :: k ++ sep ++ v) = true := by
      intro hp
      obtain ⟨v', hv'⟩ := List.isPrefixOf_iff_prefix.mp hp
      have := hmin [] v' (by simpa using hv'.symm)
      simp at this
    have ih := Index_of_FirstCut sep k (k ++ sep ++ v) v ⟨rfl, by
      intro k' v' h'
      have := hmin (c :: k') v' (by simp [h'])
      simpa using this⟩
    unfold Index
    rw [if_neg hp]
    simp only [List.cons_append, List.append_assoc] at ih ⊢
    simp [ih]

/-- `Index` cuts `s` at the first occurrence of `sep`. -/
theorem FirstCut_of_Index (sep : Bytes) :
    ∀ (s : Bytes) (m : Nat), Index s sep = some m →
      FirstCut sep s (s.take m) (s.drop (m + sep.length))
  | [], m, h => by
    unfold Index at h
    by_cases hp : sep.isPrefixOf ([] : Bytes) = true
    · rw [if_pos hp] at h
      injection h with h
      subst h
      have hsep : sep = [] := by
        have := List.isPrefixOf_iff_prefix.mp hp
        simpa using this
      subst hsep
      exact ⟨by simp, fun k' v' _ => by simp⟩
    · rw [if_neg hp] at h; cases h
  | c :: s, m, h => by
    unfold Index at h
    by_cases hp : sep.isPrefixOf (c :: s) = true
    · rw [if_pos hp] at h
      injection h with h
      subst h
      obtain ⟨v, hv⟩ := List.isPrefixOf_iff_prefix.mp hp
      refine ⟨?_, fun k' v' _ => by simp⟩
      rw [← hv]
      simp
    · rw [if_neg hp] at h
      simp only at h
      cases hi : Index s sep with
      | none => rw [hi] at h; cases h
      | some m' =>
        rw [hi] at h
        injection h with h
        subst h
        obtain ⟨hs, hmin⟩ := FirstCut_of_Index sep s m' hi
        refine ⟨?_, ?_⟩
        · have e : m' + 1 + sep.length = (m' + sep.length) + 1 := by omega
          rw [e, List.take_succ_cons, List.drop_succ_cons]
          simp only [List.cons_append]
          rw [← hs]
        · intro k' v' h'
          cases k' with
          | nil =>
            exfalso
            apply hp
            rw [List.isPrefixOf_iff_prefix]
            exact ⟨v', by simpa using h'.symm⟩
          | cons d k' =>
            simp only [List.cons_append, List.cons.injEq] at h'
            have := hmin k' v' h'.2
            simp only [List.length_take, List.length_cons] at this ⊢
            omega

/-- The first cut of a byte string, if any, is unique. -/
theorem FirstCut_unique {sep s k v k' v' : Bytes} (h : FirstCut sep s k v)
    (h' : FirstCut sep s k' v') : k = k' ∧ v = v' := by
  have h1 := Index_of_FirstCut sep k s v h
  have h2 := Index_of_FirstCut sep k' s v' h'
  rw [h1] at h2
  injection h2 with hlen
  have e := h.1.symm.trans h'.1
  rw [List.append_assoc, List.append_assoc] at e
  have hk : k = k' := List.append_inj_left e hlen
  subst hk
  exact ⟨rfl, List.append_cancel_left (List.append_cancel_left e)⟩

end bytes

namespace field

/-- Parsing a line whose trimmed content contains the separator. -/
theorem Unmarshal_of_Index_some {line : Bytes} {m : Nat}
    (h : bytes.Index (bytes.Trim line Separator) Separator = some m) :
    Unmarshal line =
      { Key := (bytes.Trim line Separator).take m,
        Value := (bytes.Trim line Separator).drop (m + Separator.length) } := by
  have hlen : 1 ≤ (bytes.Trim line Separator).length := by
    have hc := (bytes.FirstCut_of_Index Separator _ m h).1
    have : (bytes.Trim line Separator).length
        = (List.take m (bytes.Trim line Separator) ++ Separator ++
            List.drop (m + Separator.length) (bytes.Trim line Separator)).length := by
      rw [← hc]
    rw [this]
    simp only [List.length_append, field_Separator_eq, List.length_cons, List.length_nil]
    omega
  rw [field_Unmarshal_eq, bytes.SplitN_two_of_some h hlen]
  rfl

/-- Parsing a line whose trimmed content does not contain the separator. -/
theorem Unmarshal_of_Index_none {line : Bytes}
    (h : bytes.Index (bytes.Trim line Separator) Separator = none) :
    Unmarshal line = { Key := bytes.Trim line Separator, Value := [] } := by
  rw [field_Unmarshal_eq, bytes.SplitN_two_of_none h]
  rfl

end field

/-- C11. Field parsing: let `t` be `line` with every leading and trailing ':'
and ' ' removed (there is exactly one such `t`).  If `t` contains ": ",
`field.Unmarshal(line)` has as Key the part of `t` before the first occurrence
of ": " and as Value everything after that occurrence, later occurrences
included; if `t` does not contain ": ", the Key is `t` and the Value is empty.
`Unmarshal` yields a Field for every input. -/
theorem field.C11_Unmarshal (line : Bytes) :
    ∃ t, IsTrimmed (ascii ": ") line t ∧ (∀ t', IsTrimmed (ascii ": ") line t' → t' = t) ∧
      (ascii ": " <:+: t →
        ∃ k v, FirstCut (ascii ": ") t k v ∧
          (∀ k' v', FirstCut (ascii ": ") t k' v' → k' = k ∧ v' = v) ∧
          field.Unmarshal line = { Key := k, Value := v }) ∧
      (¬ ascii ": " <:+: t → field.Unmarshal line = { Key := t, Value := [] }) ∧
      field.Unmarshal (ascii " a: b: c: ") = { Key := ascii "a", Value := ascii "b: c" } := by
  have hsep : ascii ": " = field.Separator := rfl
  rw [hsep]
  refine ⟨bytes.Trim line field.Separator, bytes.IsTrimmed_Trim _ _,
    fun t' ht' => (bytes.Trim_of_IsTrimmed ht').symm, ?_, ?_, by decide⟩
  · intro hin
    obtain ⟨m, hm⟩ := bytes.Index_isSome_of_infix hin
    have hcut := bytes.FirstCut_of_Index field.Separator _ m hm
    exact ⟨_, _, hcut, fun k' v' h' => bytes.FirstCut_unique h' hcut,
      field.Unmarshal_of_Index_some hm⟩
  · intro hnot
    exact field.Unmarshal_of_Index_none (bytes.Index_eq_none hnot)

namespace field

theorem NoEdge_Trim (cutset line : Bytes) : NoEdge cutset (bytes.Trim line cutset) := by
  obtain ⟨_, _, _, _, _, h⟩ := bytes.IsTrimmed_Trim cutset line
  exact h

theorem Unmarshal_congr_Trim {x y : Bytes}
    (h : bytes.Trim x Separator = bytes.Trim y Separator) : Unmarshal x = Unmarshal y := by
  rw [field_Unmarshal_eq, field_Unmarshal_eq, h]

/-- Serializing a parsed line gives the trimmed line. -/
theorem Marshal_Unmarshal (line : Bytes) :
    (Unmarshal line).Marshal = bytes.Trim line Separator := by
  have hedge := NoEdge_Trim Separator line
  cases hi : bytes.Index (bytes.Trim line Separator) Separator with
  | none => rw [Unmarshal_of_Index_none hi, Marshal_nil_value]
  | some m =>
    have hcut := (bytes.FirstCut_of_Index Separator _ m hi).1
    have hv : List.drop (m + Separator.length) (bytes.Trim line Separator) ≠ [] := by
      intro h0
      rw [h0, List.append_nil] at hcut
      have hlast : (bytes.Trim line Separator).getLast? = some 32 := by
        rw [hcut, List.getLast?_append_of_ne_nil _ (by decide)]
        rfl
      exact (hedge 32 (by decide)).2 hlast
    rw [Unmarshal_of_Index_some hi, Marshal_ne_nil_value _ _ hv]
    exact hcut.symm

end field

/-- C18. Serialization after parsing only trims: for every byte string `line`,
`field.Unmarshal(line).Marshal()` is `line` with every leading and trailing ':'
and ' ' removed; hence parsing that serialization again gives the same Field
as parsing `line`. -/
theorem field.C18_Marshal_Unmarshal (line : Bytes) :
    (∃ t, IsTrimmed (ascii ": ") line t ∧ (field.Unmarshal line).Marshal = t) ∧
    (field.Unmarshal line).Marshal = bytes.Trim line (ascii ": ") ∧
    field.Unmarshal (field.Unmarshal line).Marshal = field.Unmarshal line := by
  have hsep : ascii ": " = field.Separator := rfl
  rw [hsep]
  refine ⟨⟨_, bytes.IsTrimmed_Trim _ _, field.Marshal_Unmarshal line⟩,
    field.Marshal_Unmarshal line, ?_⟩
  apply field.Unmarshal_congr_Trim
  rw [field.Marshal_Unmarshal]
  exact bytes.Trim_eq_self (field.NoEdge_Trim _ _)

/-! ## Parsing: splitting into segments -/

namespace bytes

theorem not_infix_of_Index_none {s sep : Bytes} (h : Index s sep = none) : ¬ sep <:+: s := by
  intro hin
  obtain ⟨m, hm⟩ := Index_isSome_of_infix hin
  rw [h] at hm; cases hm

theorem countLoop_le (sep : Bytes) : ∀ (fuel : Nat) (s : Bytes), countLoop sep fuel s ≤ fuel
  | 0, _ => by simp [countLoop]
  | fuel + 1, s => by
    unfold countLoop
    cases Index s sep with
    | none => simp
    | some i =>
      have := countLoop_le sep fuel (s.drop (i + sep.length))
      simp only
      omega

theorem genSplitLoop_ne_nil (sep : Bytes) (k : Nat) (s : Bytes) : genSplitLoop sep k s ≠ [] := by
  cases k with
  | zero => simp [genSplitLoop]
  | succ k =>
    unfold genSplitLoop
    cases Index s sep <;> simp

/-- The part before the first occurrence of a non-empty separator does not
contain the separator. -/
theorem not_infix_of_FirstCut {sep s k v : Bytes} (hsep : 1 ≤ sep.length)
    (h : FirstCut sep s k v) : ¬ sep <:+: k := by
  rintro ⟨a, b, hab⟩
  have := h.2 a (b ++ sep ++ v) (by rw [h.1, ← hab]; simp)
  have hl : k.length = a.length + sep.length + b.length := by rw [← hab]; simp; omega
  omega

/-- The loop of `genSplit`, run as often as `Count` says, cuts `s` at every
occurrence of a non-empty separator. -/
theorem IsSplit_genSplitLoop (sep : Bytes) (hsep : 1 ≤ sep.length) :
    ∀ (fuel : Nat) (s : Bytes), s.length ≤ fuel →
      IsSplit sep s (genSplitLoop sep (countLoop sep fuel s) s)
  | 0, s, hs => by
    have h0 : s = [] := List.length_eq_zero.mp (by omega)
    subst h0
    refine ⟨by simp [countLoop, genSplitLoop], by simp [countLoop, genSplitLoop, List.intercalate],
      ?_⟩
    intro seg hseg
    simp only [countLoop, genSplitLoop, List.mem_singleton] at hseg
    subst hseg
    rintro ⟨a, b, hab⟩
    have : (a ++ sep ++ b).length = 0 := by rw [hab]; rfl
    simp only [List.length_append] at this
    omega
  | fuel + 1, s, hs => by
    cases hi : Index s sep with
    | none =>
      have e : genSplitLoop sep (countLoop sep (fuel + 1) s) s = [s] :=
        genSplitLoop_of_none hi _
      rw [e]
      refine ⟨by simp, by simp [List.intercalate], ?_⟩
      intro seg hseg
      simp only [List.mem_singleton] at hseg
      subst hseg
      exact not_infix_of_Index_none hi
    | some m =>
      have hcut := FirstCut_of_Index sep s m hi
      have hlen : (s.drop (m + sep.length)).length ≤ fuel := by
        simp only [List.length_drop]; omega
      obtain ⟨h1, h2, h3⟩ := IsSplit_genSplitLoop sep hsep fuel (s.drop (m + sep.length)) hlen
      have e : genSplitLoop sep (countLoop sep (fuel + 1) s) s
          = s.take m :: genSplitLoop sep (countLoop sep fuel (s.drop (m + sep.length)))
              (s.drop (m + sep.length)) := by
        simp [countLoop, genSplitLoop, hi]
      rw [e]
      refine ⟨by simp, ?_, ?_⟩
      · obtain ⟨r, rs, hr⟩ := List.exists_cons_of_ne_nil h1
        rw [hr] at h2 ⊢
        have := Join_cons_cons (s.take m) r rs sep
        unfold Join at this
        rw [this, h2]
        exact hcut.1.symm
      · intro seg hseg
        rcases List.mem_cons.mp hseg with hseg | hseg
        · subst hseg
          exact not_infix_of_FirstCut hsep hcut
        · exact h3 seg hseg

/-- `Split` cuts `s` at every occurrence of a non-empty separator. -/
theorem IsSplit_Split (sep : Bytes) (hsep : 1 ≤ sep.length) (s : Bytes) :
    IsSplit sep s (Split s sep) := by
  have hc : Count s sep ≤ s.length := countLoop_le sep s.length s
  have h2 : ¬ (Count s sep + 1 > s.length + 1) := by omega
  rw [Split_eq, if_neg h2]
  exact IsSplit_genSplitLoop sep hsep s.length s (le_refl _)

/-- For a separator of two different bytes, `k ++ sep ++ v` is first cut
after `k` when `k` does not contain the separator. -/
theorem FirstCut_append (a b : Nat) (hab : a ≠ b) :
    ∀ (k v : Bytes), ¬ [a, b] <:+: k → FirstCut [a, b] (k ++ [a, b] ++ v) k v
  | [], v, _ => ⟨rfl, fun _ _ _ => by simp⟩
  | c :: k, v, hk => by
    have hk' : ¬ [a, b] <:+: k := fun hi => hk (hi.trans (List.suffix_cons c k).isInfix)
    obtain ⟨_, ih⟩ := FirstCut_append a b hab k v hk'
    refine ⟨rfl, ?_⟩
    intro k' v' h'
    cases k' with
    | nil =>
      exfalso
      cases k with
      | nil =>
        simp at h'
        exact hab h'.2.1
      | cons d k =>
        simp at h'
        obtain ⟨h1, h2, -⟩ := h'
        subst h1 h2
        exact hk (List.prefix_append [c, d] k).isInfix
    | cons d k' =>
      simp only [List.cons_append, List.cons.injEq] at h'
      have := ih k' v' (by simpa using h'.2)
      simp only [List.length_cons]
      omega

/-- For a separator of two different bytes there is one way only to split a
byte string at every occurrence of the separator. -/
theorem IsSplit_unique (a b : Nat) (hab : a ≠ b) :
    ∀ (segs segs' : List Bytes) (s : Bytes),
      IsSplit [a, b] s segs → IsSplit [a, b] s segs' → segs = segs'
  | [], _, _, h, _ => absurd rfl h.1
  | _ :: _, [], _, _, h' => absurd rfl h'.1
  | [l], [l'], s, h, h' => by
    have e1 : l = s := by simpa [List.intercalate] using h.2.1
    have e2 : l' = s := by simpa [List.intercalate] using h'.2.1
    rw [e1, e2]
  | [l], l' :: r' :: rs', s, h, h' => by
    exfalso
    have e1 : l = s := by simpa [List.intercalate] using h.2.1
    have e2 := Join_cons_cons l' r' rs' [a, b]
    unfold Join at e2
    have hs := h'.2.1
    rw [e2] at hs
    apply h.2.2 l (by simp)
    rw [e1, ← hs]
    exact ⟨l', List.intercalate [a, b] (r' :: rs'), rfl⟩
  | l :: r :: rs, [l'], s, h, h' => by
    exfalso
    have e1 : l' = s := by simpa [List.intercalate] using h'.2.1
    have e2 := Join_cons_cons l r rs [a, b]
    unfold Join at e2
    have hs := h.2.1
    rw [e2] at hs
    apply h'.2.2 l' (by simp)
    rw [e1, ← hs]
    exact ⟨l, List.intercalate [a, b] (r :: rs), rfl⟩
  | l :: r :: rs, l' :: r' :: rs', s, h, h' => by
    have e := Join_cons_cons l r rs [a, b]
    have e' := Join_cons_cons l' r' rs' [a, b]
    unfold Join at e e'
    have hs := h.2.1
    have hs' := h'.2.1
    rw [e] at hs
    rw [e'] at hs'
    have c1 := FirstCut_append a b hab l (List.intercalate [a, b] (r :: rs)) (h.2.2 l (by simp))
    have c2 := FirstCut_append a b hab l' (List.intercalate [a, b] (r' :: rs'))
      (h'.2.2 l' (by simp))
    rw [hs] at c1
    rw [hs'] at c2
    obtain ⟨hl, hrest⟩ := FirstCut_unique c1 c2
    have ih := IsSplit_unique a b hab (r :: rs) (r' :: rs') (List.intercalate [a, b] (r :: rs))
      ⟨by simp, rfl, fun x hx => h.2.2 x (List.mem_cons_of_mem _ hx)⟩
      ⟨by simp, hrest.symm, fun x hx => h'.2.2 x (List.mem_cons_of_mem _ hx)⟩
    rw [hl, ih]

end bytes

/-- C12. FieldSet parsing: let `t` be `b` with every leading and trailing '\r'
and '\n' removed and let `segs` be the segments of `t` between the occurrences
of "\r\n" (both are uniquely determined).  `fields.Unmarshal(b)` is the list of
`field.Unmarshal(seg)` for the segments in order, one Field per segment; an
empty segment gives a Field with empty Key and empty Value, which is kept. -/
theorem fields.C12_Unmarshal (b : Bytes) :
    ∃ t segs, IsTrimmed (ascii "\r\n") b t ∧ IsSplit (ascii "\r\n") t segs ∧
      (∀ t' segs', IsTrimmed (ascii "\r\n") b t' → IsSplit (ascii "\r\n") t' segs' →
        t' = t ∧ segs' = segs) ∧
      fields.Unmarshal b = segs.map field.Unmarshal ∧
      (fields.Unmarshal b).length = segs.length ∧
      field.Unmarshal [] = { Key := [], Value := [] } ∧
      fields.Unmarshal (ascii "\r\nA: 1\r\n\r\nB\r\n") =
        [⟨ascii "A", ascii "1"⟩, ⟨[], []⟩, ⟨ascii "B", []⟩] := by
  have hsep : ascii "\r\n" = fields.Separator := rfl
  rw [hsep]
  have hsplit := bytes.IsSplit_Split fields.Separator (by decide)
    (bytes.Trim b fields.Separator)
  refine ⟨bytes.Trim b fields.Separator,
    bytes.Split (bytes.Trim b fields.Separator) fields.Separator,
    bytes.IsTrimmed_Trim _ _, hsplit, ?_, fields.Unmarshal_eq_map b, ?_, by decide, by decide⟩
  · intro t' segs' ht' hs'
    have e : t' = bytes.Trim b fields.Separator := (bytes.Trim_of_IsTrimmed ht').symm
    subst e
    refine ⟨rfl, ?_⟩
    rw [fields.fields_Separator_eq] at hs' hsplit ⊢
    exact bytes.IsSplit_unique 13 10 (by decide) _ _ _ hs' hsplit
  · rw [fields.Unmarshal_eq_map, List.length_map]

/-- C13. FieldSet serialization: `fs.Marshal()` is the serializations of the
Fields in order with "\r\n" between neighbours and nothing before the first or
after the last: the empty FieldSet gives the empty byte string, a FieldSet of
one Field gives the serialization of that Field, and a longer FieldSet gives
the serialization of its first Field, then "\r\n", then the serialization of
the rest. -/
theorem fields.C13_Marshal (fs : fields.Fields) :
    fields.Fields.Marshal fs = (ascii "\r\n").intercalate (fs.map field.Field.Marshal) ∧
    fields.Fields.Marshal [] = [] ∧
    (∀ f : field.Field, fields.Fields.Marshal [f] = f.Marshal) ∧
    (∀ (f g : field.Field) (rest : fields.Fields),
      fields.Fields.Marshal (f :: g :: rest)
        = f.Marshal ++ [13, 10] ++ fields.Fields.Marshal (g :: rest)) ∧
    fields.Fields.Marshal [⟨ascii "A", ascii "1"⟩, ⟨ascii "B", []⟩, ⟨ascii "C", ascii "3"⟩]
      = ascii "A: 1\r\nB\r\nC: 3" := by
  refine ⟨rfl, rfl, ?_, ?_, by decide⟩
  · intro f
    simp [fields.Fields.Marshal, bytes.Join_singleton]
  · intro f g rest
    simp only [fields.Fields.Marshal, List.map_cons, bytes.Join_cons_cons]
    rfl

/-- C19. FieldSet parsing never yields an empty FieldSet: `fields.Unmarshal(b)`
has at least one Field for every `b`; when `b` is empty or consists of '\r' and
'\n' only, the result is exactly one Field with empty Key and empty Value; so
parsing the serialization of the empty FieldSet gives a FieldSet of length 1. -/
theorem fields.C19_Unmarshal_nonempty (b : Bytes) :
    1 ≤ (fields.Unmarshal b).length ∧
    ((∀ c ∈ b, c = 13 ∨ c = 10) → fields.Unmarshal b = [{ Key := [], Value := [] }]) ∧
    fields.Unmarshal [] = [{ Key := [], Value := [] }] ∧
    (fields.Unmarshal (fields.Fields.Marshal [])).length = 1 := by
  refine ⟨?_, ?_, by decide, by decide⟩
  · rw [fields.Unmarshal_eq_map, List.length_map]
    exact List.length_pos.mpr (bytes.IsSplit_Split fields.Separator (by decide) _).1
  · intro hall
    have ht : bytes.Trim b fields.Separator = [] := by
      apply bytes.Trim_of_IsTrimmed
      refine ⟨b, [], by simp, ?_, by simp, by decide⟩
      intro c hc
      rcases hall c hc with h | h <;> subst h <;> decide
    rw [fields.Unmarshal_eq_map, ht]
    decide

/-- C14. Message parsing: `message.Unmarshal(b).GetRaw()` is `b` itself,
untrimmed; the FieldSet of the Message is `fields.Unmarshal` applied to `b`
with every leading and trailing '\r' and '\n' removed; a Message built with
`message.New` has an empty raw buffer. -/
theorem message.C14_Unmarshal (b : Bytes) :
    (message.Unmarshal b).GetRaw = b ∧
    (∃ t, IsTrimmed (ascii "\r\n") b t ∧ (message.Unmarshal b).GetFields = fields.Unmarshal t) ∧
    (message.Unmarshal b).GetFields = fields.Unmarshal (bytes.Trim b (ascii "\r\n")) ∧
    (∀ fs : List field.Field, (message.New fs).GetRaw = []) ∧
    (message.Unmarshal (ascii "\r\nA: 1\r\n\r\n")).GetRaw = ascii "\r\nA: 1\r\n\r\n" ∧
    (message.Unmarshal (ascii "\r\nA: 1\r\n\r\n")).GetFields = [⟨ascii "A", ascii "1"⟩] := by
  have htrim : bytes.Trim b message.Separator = bytes.Trim b (ascii "\r\n") := by
    have hc : bytes.inCutset message.Separator = bytes.inCutset (ascii "\r\n") := by
      funext c
      rw [Bool.eq_iff_iff, bytes.inCutset_iff, bytes.inCutset_iff]
      simp [message.Separator, fields.Separator]
    simp only [bytes.Trim, bytes.TrimLeft, bytes.TrimRight, hc]
  have hf : (message.Unmarshal b).GetFields = fields.Unmarshal (bytes.Trim b (ascii "\r\n")) := by
    simp only [message.Unmarshal, message.Message.GetFields, htrim]
  refine ⟨by simp [message.Unmarshal, message.Message.GetRaw],
    ⟨_, bytes.IsTrimmed_Trim _ _, hf⟩, hf, fun fs => rfl, by decide, by decide⟩

/-! ## The read loop: one iteration -/

namespace net

theorem HasSuffix_iff (s suffix : Bytes) : bytes.HasSuffix s suffix = true ↔ suffix <:+ s := by
  unfold bytes.HasSuffix
  exact List.isSuffixOf_iff_suffix

theorem readBytesLoop_nil (delim : Nat) (buf : Bytes) :
    bufio.readBytesLoop delim buf [] =
      match bufio.cutAfter delim buf with
      | some (line, rest) => some ((line, none), { buf := rest, rd := [] })
      | none => none := rfl

theorem readBytesLoop_cons (delim : Nat) (buf : Bytes) (o : bufio.ReadOutcome)
    (rd : List bufio.ReadOutcome) :
    bufio.readBytesLoop delim buf (o :: rd) =
      match bufio.cutAfter delim buf with
      | some (line, rest) => some ((line, none), { buf := rest, rd := o :: rd })
      | none =>
        match o with
        | bufio.ReadOutcome.data b => bufio.readBytesLoop delim (buf ++ b) rd
        | bufio.ReadOutcome.fail e => some ((buf, some e), { buf := [], rd := rd }) := rfl

/-- When `ReadBytes` returns an error, it returns all the bytes the reader
held, and the reader's buffer is empty afterwards. -/
theorem readBytesLoop_fail_buf (delim : Nat) :
    ∀ (rd : List bufio.ReadOutcome) (buf b : Bytes) (e : bufio.ReadErr) (r : bufio.Reader),
      bufio.readBytesLoop delim buf rd = some ((b, some e), r) →
        r.buf = [] ∧ b = buf ++ (b.drop buf.length)
  | [], buf, b, e, r, h => by
    rw [readBytesLoop_nil] at h
    cases hc : bufio.cutAfter delim buf with
    | none => rw [hc] at h; cases h
    | some lr => rw [hc] at h; simp at h
  | o :: rd, buf, b, e, r, h => by
    rw [readBytesLoop_cons] at h
    cases hc : bufio.cutAfter delim buf with
    | some lr => rw [hc] at h; simp at h
    | none =>
      rw [hc] at h
      cases o with
      | data d =>
        simp only at h
        obtain ⟨h1, h2⟩ := readBytesLoop_fail_buf delim rd (buf ++ d) b e r h
        refine ⟨h1, ?_⟩
        have hb : b = buf ++ (d ++ List.drop (buf ++ d).length b) := by
          rw [← List.append_assoc]; exact h2
        rw [hb, List.drop_left]
      | fail e' =>
        simp only [Option.some.injEq, Prod.mk.injEq] at h
        obtain ⟨⟨hb, _⟩, hr⟩ := h
        subst hb
        rw [← hr]
        simp

end net

/-- C15. Read-loop accumulation step: after a successful read of the chunk `c`
on a connection with accumulation buffer `buf` and separator `sep`: if
`buf ++ c` ends with `sep`, the callback is called exactly once, with
`message.Unmarshal(buf ++ c)`, and the buffer becomes empty; otherwise the
callback is not called and the buffer becomes `buf ++ c`.  In both cases the
loop goes on. -/
theorem net.C15_accumulate (conn : net.Connection) (c : Bytes) :
    (conn.messageSeparator <:+ conn.readBuffer ++ c →
      conn.afterRead c none =
        ({ conn with
            readBuffer := []
            delivered := conn.delivered ++ [message.Unmarshal (conn.readBuffer ++ c)] },
          true)) ∧
    (¬ conn.messageSeparator <:+ conn.readBuffer ++ c →
      conn.afterRead c none = ({ conn with readBuffer := conn.readBuffer ++ c }, true)) ∧
    (∀ (st : net.ReadState) (r : bufio.Reader), st.conn = conn →
      ¬ conn.closing > 0 → conn.readDeadlineFails = false →
      st.bufReader.ReadBytes 10 = some ((c, none), r) →
      net.readIteration st = some ({ conn := (conn.afterRead c none).1, bufReader := r }, true)) := by
  refine ⟨?_, ?_, ?_⟩
  · intro h
    have h' := (net.HasSuffix_iff _ _).mpr h
    simp [net.Connection.afterRead, h']
  · intro h
    have h' : bytes.HasSuffix (conn.readBuffer ++ c) conn.messageSeparator = false := by
      rw [Bool.eq_false_iff]
      exact fun hh => h ((net.HasSuffix_iff _ _).mp hh)
    simp [net.Connection.afterRead, h']
  · intro st r hst hc hd hread
    subst hst
    have h2 : (st.conn.afterRead c none).2 = true := by
      simp only [net.Connection.afterRead]
      split <;> rfl
    simp only [net.readIteration, hc, hd, hread, if_false, Bool.false_eq_true]
    rw [h2]

/-- C16. Read outcome classification: in an iteration of the read loop whose
`ReadBytes` returns the bytes `b` together with the error `e`: if `e` is
end-of-stream, the loop stops and the teardown runs; if `e` is a timeout or any
other error, the loop goes on with the connection unchanged (no callback, the
accumulation buffer as it was), and the bytes `b` are gone: they are not
appended and the reader no longer holds them.  So no read error other than
end-of-stream ends the loop. -/
theorem net.C16_read_outcome (st : net.ReadState) (n : Nat) (b : Bytes) (e : bufio.ReadErr)
    (r : bufio.Reader) (hreading : st.conn.reading = true) (hclosing : ¬ st.conn.closing > 0)
    (hdeadline : st.conn.readDeadlineFails = false)
    (hread : st.bufReader.ReadBytes 10 = some ((b, some e), r)) :
    (e = bufio.ReadErr.EOF →
      st.conn.afterRead b (some e) = (st.conn, false) ∧
      net.read (n + 1) st = { conn := st.conn.teardown, bufReader := r } ∧
      (net.read (n + 1) st).conn.reading = false) ∧
    (e ≠ bufio.ReadErr.EOF →
      st.conn.afterRead b (some e) = (st.conn, true) ∧
      net.read (n + 1) st = net.read n { conn := st.conn, bufReader := r }) ∧
    r.buf = [] := by
  have hbuf : r.buf = [] := (net.readBytesLoop_fail_buf 10 _ _ _ _ _ hread).1
  have hiter : net.readIteration st
      = some ({ conn := (st.conn.afterRead b (some e)).1, bufReader := r },
          (st.conn.afterRead b (some e)).2) := by
    simp only [net.readIteration, hclosing, hdeadline, hread, if_false, Bool.false_eq_true]
  refine ⟨?_, ?_, hbuf⟩
  · intro he
    subst he
    have ha : st.conn.afterRead b (some bufio.ReadErr.EOF) = (st.conn, false) := rfl
    rw [ha] at hiter
    refine ⟨ha, ?_, ?_⟩ <;> simp [net.read, hreading, hiter, net.Connection.teardown]
  · intro he
    have ha : st.conn.afterRead b (some e) = (st.conn, true) := by
      cases e with
      | EOF => exact absurd rfl he
      | timeout => rfl
      | other => rfl
    rw [ha] at hiter
    exact ⟨ha, by simp [net.read, hreading, hiter]⟩

/-- Witness for C16: the read deadline expires while the reader holds the
partial line "A: "; the bytes are dropped and the loop goes on. -/
theorem net.C16_read_outcome_witness :
    (bufio.ReadErr.timeout = bufio.ReadErr.EOF →
      (net.Connect [] 0 none none).1.afterRead (ascii "A: ") (some bufio.ReadErr.timeout)
        = ((net.Connect [] 0 none none).1, false) ∧
      net.read (4 + 1) ⟨(net.Connect [] 0 none none).1,
          ⟨ascii "A: ", [.fail .timeout, .data (ascii "1\r\n")]⟩⟩
        = { conn := (net.Connect [] 0 none none).1.teardown,
            bufReader := ⟨[], [.data (ascii "1\r\n")]⟩ } ∧
      (net.read (4 + 1) ⟨(net.Connect [] 0 none none).1,
          ⟨ascii "A: ", [.fail .timeout, .data (ascii "1\r\n")]⟩⟩).conn.reading = false) ∧
    (bufio.ReadErr.timeout ≠ bufio.ReadErr.EOF →
      (net.Connect [] 0 none none).1.afterRead (ascii "A: ") (some bufio.ReadErr.timeout)
        = ((net.Connect [] 0 none none).1, true) ∧
      net.read (4 + 1) ⟨(net.Connect [] 0 none none).1,
          ⟨ascii "A: ", [.fail .timeout, .data (ascii "1\r\n")]⟩⟩
        = net.read 4 ⟨(net.Connect [] 0 none none).1, ⟨[], [.data (ascii "1\r\n")]⟩⟩) ∧
    (⟨[], [.data (ascii "1\r\n")]⟩ : bufio.Reader).buf = [] :=
  net.C16_read_outcome ⟨(net.Connect [] 0 none none).1,
      ⟨ascii "A: ", [.fail .timeout, .data (ascii "1\r\n")]⟩⟩ 4 (ascii "A: ")
    bufio.ReadErr.timeout ⟨[], [.data (ascii "1\r\n")]⟩ (by decide) (by decide) (by decide)
    (by decide)

/-- What the dropped bytes of the C16 witness lead to: the callback receives
the Field ("1", "") instead of ("A", "1"). -/
theorem net.read_after_timeout_example :
    (net.read 5 ⟨(net.Connect [] 0 none none).1,
        ⟨ascii "A: ", [.fail .timeout, .data (ascii "1\r\n")]⟩⟩).conn.delivered.map
        message.Message.GetFields
      = [[⟨ascii "1", []⟩]] := by
  decide

/-! ## Guarded write -/

namespace net

theorem wrappedOpen_eq :
    wrappedOpen =
      { messageSeparator := ascii "\r\n", readBuffer := [],
        tcp := some { written := [], isClosed := false }, writeMux := false,
        closing := -2147483648, closed := 0, waitClose := 1, delivered := [],
        reading := true } := by
  have h : manyCloses = { (Connect [] 0 none none).1 with closing := 2147483647 } := by
    unfold manyCloses
    rw [run_replicate_close _ _ (by decide)]
    rfl
  unfold wrappedOpen
  rw [h]
  decide

/-- What `writeBytes` leaves alone: the counters, the barrier, the lock. -/
theorem writeBytes_frame (conn : Connection) (cmd : Bytes) (out : WriteOutcome) :
    (conn.writeBytes cmd out).1.writeMux = false ∧
    (conn.writeBytes cmd out).1.waitClose = conn.waitClose ∧
    (conn.writeBytes cmd out).1.closing = conn.closing ∧
    (conn.writeBytes cmd out).1.closed = conn.closed := by
  unfold Connection.writeBytes
  simp only
  split
  · simp
  · split
    · simp
    · split
      · simp
      · split <;> simp

/-- A `writeBytes` that changes the socket has passed the guard. -/
theorem writeBytes_guard (conn : Connection) (cmd : Bytes) (out : WriteOutcome)
    (h : (conn.writeBytes cmd out).1.tcp ≠ conn.tcp) :
    ¬ conn.closing > 0 ∧ ¬ conn.closed > 0 := by
  by_contra hn
  have hg : 0 < conn.closing ∨ 0 < conn.closed := by
    by_contra hg
    exact hn ⟨fun h1 => hg (Or.inl h1), fun h2 => hg (Or.inr h2)⟩
  rw [writeBytes_of_closed conn cmd out hg] at h
  exact h rfl

end net

/-- C17 (counterexample). After a successful Connect and `2^31` `Close` steps
the closing counter is `-2^31`, not 0, and the closed counter is 0; the guard
`closing > 0 || closed > 0` is false and `writeBytes` writes `cmd` to the
socket although the closing counter is not 0. -/
theorem net.C17_counterexample :
    net.wrappedOpen.closing ≠ 0 ∧
    (net.wrappedOpen.writeBytes (ascii "A: 1\r\n\r\n") net.WriteOutcome.ok).2 = none ∧
    (net.wrappedOpen.writeBytes (ascii "A: 1\r\n\r\n") net.WriteOutcome.ok).1.tcp
      = some { written := [ascii "A: 1\r\n\r\n"], isClosed := false } := by
  rw [net.wrappedOpen_eq]
  decide

/-- C17 (amended). Guarded write: `writeBytes` writes to the socket only if
neither the closing nor the closed counter is positive at the check (both are
0 when neither is negative); if either is positive it returns the "connection
closed" error and leaves the socket untouched.  On every exit path the write
lock is released and the barrier count and the closing and closed counters are
what they were before the call.  On an open connection a `Write(msg)` whose
socket operations succeed hands exactly `msg.Marshal()` to the socket. -/
theorem net.C17_guarded_write_amended (conn : net.Connection) (cmd : Bytes)
    (out : net.WriteOutcome) :
    ((conn.writeBytes cmd out).1.tcp ≠ conn.tcp →
      ¬ conn.closing > 0 ∧ ¬ conn.closed > 0 ∧
      (0 ≤ conn.closing → 0 ≤ conn.closed → conn.closing = 0 ∧ conn.closed = 0)) ∧
    (conn.closing > 0 ∨ conn.closed > 0 →
      (conn.writeBytes cmd out).2 = some "connection closed" ∧
      (conn.writeBytes cmd out).1.tcp = conn.tcp) ∧
    ((conn.writeBytes cmd out).1.writeMux = false ∧
      (conn.writeBytes cmd out).1.waitClose = conn.waitClose ∧
      (conn.writeBytes cmd out).1.closing = conn.closing ∧
      (conn.writeBytes cmd out).1.closed = conn.closed) ∧
    (∀ (msg : message.Message) (sock : net.TCPConn),
      ¬ conn.closing > 0 → ¬ conn.closed > 0 → conn.tcp = some sock → sock.isClosed = false →
        (conn.Write msg net.WriteOutcome.ok).2 = none ∧
        (conn.Write msg net.WriteOutcome.ok).1.tcp
          = some { sock with written := sock.written ++ [msg.Marshal] }) := by
  refine ⟨?_, ?_, net.writeBytes_frame conn cmd out, ?_⟩
  · intro h
    obtain ⟨h1, h2⟩ := net.writeBytes_guard conn cmd out h
    exact ⟨h1, h2, fun h3 h4 => ⟨by omega, by omega⟩⟩
  · intro h
    rw [net.writeBytes_of_closed conn cmd out h]
    exact ⟨rfl, rfl⟩
  · intro msg sock h1 h2 h3 h4
    simp [net.Connection.Write, net.Connection.writeBytes, h1, h2, h3, h4]

/-! ## The shutdown counters over all steps -/

namespace net

theorem loopRun_map_op (ops : List Op) :
    ∀ c : Connection, c.loopRun (ops.map LoopOp.op) = c.run ops := by
  induction ops with
  | nil => intro c; rfl
  | cons o ops ih =>
    intro c
    simp only [Connection.loopRun, Connection.run, List.map_cons, List.foldl_cons] at ih ⊢
    exact ih (c.step o)

theorem loopRun_append (c : Connection) (ops1 ops2 : List LoopOp) :
    c.loopRun (ops1 ++ ops2) = (c.loopRun ops1).loopRun ops2 := by
  simp [Connection.loopRun, List.foldl_append]

theorem Counted.teardown {c : Connection} {n : Nat} (h : Counted c n) (hr : c.reading = true) :
    Counted c.teardown n ∧ c.teardown.reading = false := by
  obtain ⟨h1, ⟨sock, h2, h3⟩, h4⟩ := h
  simp only [hr, if_true] at h1 h4
  refine ⟨⟨?_, ?_, ?_⟩, rfl⟩
  · simp [Connection.teardown, h1, atomicAddInt32, wrapInt32]
  · exact ⟨{ sock with isClosed := true }, by simp [Connection.teardown, h2], by
      simp [Connection.teardown]⟩
  · simp only [Connection.teardown, atomicAddInt32, h4, wrapInt32_add]
    simp

theorem Counted.writeBytes {c : Connection} {n : Nat} (h : Counted c n) (cmd : Bytes)
    (out : WriteOutcome) :
    Counted (c.writeBytes cmd out).1 n ∧ (c.writeBytes cmd out).1.reading = c.reading := by
  obtain ⟨h1, ⟨sock, h2, h3⟩, h4⟩ := h
  unfold Connection.writeBytes
  simp only [h2]
  split
  · exact ⟨⟨h1, ⟨sock, rfl, h3⟩, h4⟩, rfl⟩
  · split
    · exact ⟨⟨h1, ⟨sock, rfl, h3⟩, h4⟩, rfl⟩
    · split
      · exact ⟨⟨h1, ⟨sock, rfl, h3⟩, h4⟩, rfl⟩
      · exact ⟨⟨h1, ⟨_, rfl, h3⟩, h4⟩, rfl⟩
      · exact ⟨⟨h1, ⟨_, rfl, h3⟩, h4⟩, rfl⟩

theorem Counted.afterRead {c : Connection} {n : Nat} (h : Counted c n) (b : Bytes)
    (err : Option bufio.ReadErr) :
    Counted (c.afterRead b err).1 n ∧ (c.afterRead b err).1.reading = c.reading := by
  obtain ⟨h1, h2, h4⟩ := h
  unfold Connection.afterRead
  split
  · exact ⟨⟨h1, h2, h4⟩, rfl⟩
  · exact ⟨⟨h1, h2, h4⟩, rfl⟩
  · exact ⟨⟨h1, h2, h4⟩, rfl⟩
  · simp only
    split
    · exact ⟨⟨h1, h2, h4⟩, rfl⟩
    · exact ⟨⟨h1, h2, h4⟩, rfl⟩

theorem Counted.of_readIteration {st st' : ReadState} {n : Nat} {cont : Bool}
    (h : Counted st.conn n) (hi : net.readIteration st = some (st', cont)) :
    Counted st'.conn n ∧ st'.conn.reading = st.conn.reading := by
  unfold net.readIteration at hi
  by_cases h1 : st.conn.closing > 0
  · rw [if_pos h1] at hi
    injection hi with hi
    injection hi with hi _
    subst hi
    exact ⟨h, rfl⟩
  · rw [if_neg h1] at hi
    by_cases h2 : st.conn.readDeadlineFails = true
    · rw [if_pos h2] at hi
      injection hi with hi
      injection hi with hi _
      subst hi
      exact ⟨h, rfl⟩
    · rw [if_neg h2] at hi
      cases hrb : st.bufReader.ReadBytes 10 with
      | none => rw [hrb] at hi; cases hi
      | some res =>
        obtain ⟨⟨b, err⟩, r'⟩ := res
        rw [hrb] at hi
        simp only [Option.some.injEq, Prod.mk.injEq] at hi
        obtain ⟨hi, _⟩ := hi
        subst hi
        exact h.afterRead b err

/-- One step keeps the description of the counters, adds one to the count for
a `Close` step, and never restarts the read goroutine. -/
theorem Counted.loopStep {c : Connection} {n : Nat} (h : Counted c n) (o : LoopOp) :
    Counted (c.loopStep o) (n + loopCloseCount [o]) ∧
      (c.reading = false → (c.loopStep o).reading = false) := by
  cases o with
  | op o =>
    cases o with
    | close =>
      refine ⟨⟨h.closedVal, h.sock, ?_⟩, fun hr => hr⟩
      simp only [Connection.loopStep, Connection.step, Connection.Close, atomicAddInt32,
        h.closingVal, wrapInt32_add]
      congr 1
      simp [loopCloseCount]
      ring
    | write msg out =>
      have := h.writeBytes msg.Marshal out
      refine ⟨?_, fun hr => by
        simp only [Connection.loopStep, Connection.step, Connection.Write]; rw [this.2]; exact hr⟩
      simpa [loopCloseCount, Connection.loopStep, Connection.step, Connection.Write] using this.1
    | teardown =>
      by_cases hr : c.reading = true
      · have := h.teardown hr
        refine ⟨?_, fun hr' => by rw [hr] at hr'; cases hr'⟩
        simpa [loopCloseCount, Connection.loopStep, Connection.step, hr] using this.1
      · refine ⟨?_, fun hr' => by simpa [Connection.loopStep, Connection.step, hr] using hr'⟩
        simpa [loopCloseCount, Connection.loopStep, Connection.step, hr] using h
  | iteration r =>
    have hcount : n + loopCloseCount [LoopOp.iteration r] = n := by simp [loopCloseCount]
    rw [hcount]
    by_cases hr : c.reading = true
    · refine ⟨?_, fun hr' => by rw [hr] at hr'; cases hr'⟩
      have hst : Counted (ReadState.mk c r).conn n := h
      simp only [Connection.loopStep, read, hr, if_true]
      cases hi : net.readIteration { conn := c, bufReader := r } with
      | none => exact h
      | some res =>
        obtain ⟨st', cont⟩ := res
        obtain ⟨h1, h2⟩ := hst.of_readIteration hi
        cases cont with
        | true => exact h1
        | false => exact (h1.teardown (by rw [h2]; exact hr)).1
    · have : c.loopStep (LoopOp.iteration r) = c := by
        simp [Connection.loopStep, read, hr]
      rw [this]
      exact ⟨h, fun hr' => hr'⟩

theorem Counted.loopRun (ops : List LoopOp) :
    ∀ (c : Connection) (n : Nat), Counted c n →
      Counted (c.loopRun ops) (n + loopCloseCount ops) ∧
        (c.reading = false → (c.loopRun ops).reading = false) := by
  induction ops with
  | nil => intro c n h; exact ⟨by simpa [loopCloseCount, Connection.loopRun] using h, fun hr => hr⟩
  | cons o ops ih =>
    intro c n h
    obtain ⟨h1, h2⟩ := h.loopStep o
    obtain ⟨h3, h4⟩ := ih (c.loopStep o) _ h1
    have hc : n + loopCloseCount [o] + loopCloseCount ops = n + loopCloseCount (o :: ops) := by
      simp only [loopCloseCount, List.count_cons, List.count_nil]
      omega
    rw [hc] at h3
    exact ⟨h3, fun hr => h4 (h2 hr)⟩

theorem Counted_Connect (host : Bytes) (port : Int) :
    Counted (Connect host port none none).1 0 :=
  ⟨rfl, ⟨_, rfl, rfl⟩, rfl⟩

end net

/-- C20 (counterexample). On a connection opened by a successful Connect the
peer closes the stream, the read loop tears the connection down (closing = 1,
closed = 1), and `Close` is then called `2^31 - 1` times: the closing counter
has decreased from 1 to `-2^31`, and closed is positive while closing is not. -/
theorem net.C20_counterexample :
    ((net.Connect [] 0 none none).1.loopRun (net.eofThenCloses.take 1)).closing = 1 ∧
    ((net.Connect [] 0 none none).1.loopRun net.eofThenCloses).closing = -2147483648 ∧
    ((net.Connect [] 0 none none).1.loopRun net.eofThenCloses).closed = 1 ∧
    ¬ (0 < ((net.Connect [] 0 none none).1.loopRun net.eofThenCloses).closed →
        0 < ((net.Connect [] 0 none none).1.loopRun net.eofThenCloses).closing) := by
  have h1 : (net.Connect [] 0 none none).1.loopRun (net.eofThenCloses.take 1)
      = { messageSeparator := ascii "\r\n", readBuffer := [],
          tcp := some { written := [], isClosed := true }, writeMux := false,
          closing := 1, closed := 1, waitClose := 0, delivered := [], reading := false } := by
    decide
  have h2 : (net.Connect [] 0 none none).1.loopRun net.eofThenCloses
      = { messageSeparator := ascii "\r\n", readBuffer := [],
          tcp := some { written := [], isClosed := true }, writeMux := false,
          closing := -2147483648, closed := 1, waitClose := 0, delivered := [],
          reading := false } := by
    have e : net.eofThenCloses = net.eofThenCloses.take 1 ++
        (List.replicate 2147483647 net.Op.close).map net.LoopOp.op := rfl
    rw [e, net.loopRun_append, h1, net.loopRun_map_op, net.run_replicate_close _ _ (by decide)]
    decide
  rw [h1, h2]
  decide

/-- C20 (amended). Shutdown counters on a connection opened by a successful
Connect, in every state reached by a sequence of Close, Write, read-loop
iteration and teardown steps (`ops1`), compared with every later state (after
`ops2` more steps): the closed counter never decreases, is 0 or 1, and when it
is positive the socket has been closed; as long as the `int32` closing counter
cannot have wrapped (fewer than `2^31 - 1` Close steps in all), the closing
counter never decreases and a positive closed counter implies a positive
closing counter. -/
theorem net.C20_counters_amended (host : Bytes) (port : Int) (ops1 ops2 : List net.LoopOp) :
    ((net.Connect host port none none).1.loopRun ops1).closed
      ≤ ((net.Connect host port none none).1.loopRun (ops1 ++ ops2)).closed ∧
    (((net.Connect host port none none).1.loopRun ops1).closed = 0 ∨
      ((net.Connect host port none none).1.loopRun ops1).closed = 1) ∧
    (0 < ((net.Connect host port none none).1.loopRun ops1).closed →
      ∃ sock, ((net.Connect host port none none).1.loopRun ops1).tcp = some sock ∧
        sock.isClosed = true) ∧
    (net.loopCloseCount (ops1 ++ ops2) + 1 < 2147483648 →
      ((net.Connect host port none none).1.loopRun ops1).closing
        ≤ ((net.Connect host port none none).1.loopRun (ops1 ++ ops2)).closing ∧
      (0 < ((net.Connect host port none none).1.loopRun ops1).closed →
        0 < ((net.Connect host port none none).1.loopRun ops1).closing)) := by
  obtain ⟨hA, _⟩ := net.Counted.loopRun ops1 _ 0 (net.Counted_Connect host port)
  rw [net.loopRun_append]
  obtain ⟨hB, hmono⟩ := net.Counted.loopRun ops2 _ _ hA
  generalize ((net.Connect host port none none).1.loopRun ops1) = c1 at hA hB hmono ⊢
  generalize (c1.loopRun ops2) = c2 at hB hmono ⊢
  obtain ⟨a1, ⟨s1, a2, a3⟩, a4⟩ := hA
  obtain ⟨b1, _, b4⟩ := hB
  have hcount : net.loopCloseCount (ops1 ++ ops2)
      = net.loopCloseCount ops1 + net.loopCloseCount ops2 := by
    simp [net.loopCloseCount]
  refine ⟨?_, ?_, ?_, ?_⟩
  · rw [a1, b1]
    by_cases hr : c1.reading = true
    · simp only [hr, if_true]; split <;> decide
    · have hr' : c1.reading = false := by simpa using hr
      simp [hr', hmono hr']
  · rw [a1]; by_cases hr : c1.reading = true <;> simp [hr]
  · intro hpos
    refine ⟨s1, a2, ?_⟩
    rw [a3]
    by_cases hr : c1.reading = true
    · rw [a1] at hpos; simp [hr] at hpos
    · simp [hr]
  · intro hbound
    rw [hcount] at hbound
    have e1 : c1.closing = (0 + net.loopCloseCount ops1 : Nat) + (if c1.reading then 0 else 1) := by
      rw [a4]
      apply net.wrapInt32_of_range
      · split <;> omega
      · split <;> omega
    have e2 : c2.closing = (0 + net.loopCloseCount ops1 + net.loopCloseCount ops2 : Nat)
        + (if c2.reading then 0 else 1) := by
      rw [b4]
      apply net.wrapInt32_of_range
      · split <;> omega
      · split <;> omega
    constructor
    · rw [e1, e2]
      by_cases hr : c1.reading = true
      · simp only [hr, if_true]
        push_cast
        split <;> omega
      · have hr' : c1.reading = false := by simpa using hr
        simp only [hr', hmono hr']
        push_cast
        simp
    · intro hpos
      rw [e1]
      by_cases hr : c1.reading = true
      · rw [a1] at hpos; simp [hr] at hpos
      · simp only [hr]
        push_cast
        simp
